import Mathlib

/-!
# LZJB: a shallow embedding of `lzjb_compress` and `lzjb_decompress`

The definitions follow `src/lzjb.c` and `src/lzjb.h`.

Conventions of the embedding
* A byte (`uint8_t`) is a `Fin 256`; a store of an `int` into a byte is `toByte`
  (reduction modulo 256).
* Pointers are offsets from the start of their buffer. Pointer comparisons
  such as `src > s_start + s_len - MATCH_MAX` are comparisons of integers
  (a flat address space in which the buffers do not sit at its very
  beginning, so that `s_start + s_len - MATCH_MAX` does not wrap around).
* The encoder stores the low 16 bits of the *address* of `src` in `lempel`;
  the address of the first source byte is the parameter `a`.
* The output of the encoder is the list of bytes `dst[0 .. dst - d_start)`.
* The decoder reads the memory at `src` and writes the memory at `dst`, both
  functions from offsets to bytes: a read past `s_len` or a write past the
  capacity is an access like any other, and is what the theorems rule out
  (or exhibit). The destination memory keeps the list of the offsets of the
  stores made into it.
* Each `while` loop of the source is the iteration of its body; the iteration
  is bounded by a fuel argument and returns `none` when the fuel runs out.
  The theorems show that the fuel given by the entry points always suffices.
-/

namespace Lzjb

/-! ## Constants -/

/-- The type of a byte, `uint8_t`. -/
abbrev Byte := Fin 256

/-- Store of an integer value into a `uint8_t`. -/
def toByte (n : Nat) : Byte := ⟨n % 256, Nat.mod_lt _ (by decide)⟩

def MATCH_BITS : Nat := 6
def MATCH_MIN : Nat := 3
def MATCH_MAX : Nat := (1 <<< MATCH_BITS) + (MATCH_MIN - 1)
def OFFSET_MASK : Nat := (1 <<< (16 - MATCH_BITS)) - 1
def LEMPEL_SIZE : Nat := 1024
def NBBY : Nat := 8

/-- The macro `LZJB_MAX_COMPRESSED_SIZE` of `lzjb.h`. -/
def LZJB_MAX_COMPRESSED_SIZE (s_len : Nat) : Nat :=
  s_len + (s_len / 8) + (if s_len % 8 ≠ 0 then 1 else 0) + (2 * 8)

/-- The enumeration `LZJBResult` of `lzjb.h`. -/
inductive LZJBResult where
  | LZJB_OK
  | LZJB_BAD_DATA
  | LZJB_WOULD_OVERFLOW
  deriving DecidableEq

open LZJBResult

/-- Outcome of one execution of a loop body: the function returned, or the
loop goes on with a new state. -/
inductive Step (ρ σ : Type) where
  | done (r : ρ)
  | next (s : σ)

/-! ## The encoder -/

/-- The local state of `lzjb_compress` at the head of its loop. -/
structure CState where
  /-- The cursor `src - s_start`. -/
  spos : Nat
  /-- The bytes `dst[0 .. dst - d_start)` written so far. -/
  out : List Byte
  /-- The offset `copymap - d_start` (meaningless while `copymap` is `NULL`,
  that is before the first iteration, which always sets it). -/
  copymap : Nat
  /-- The variable `copymask`. -/
  copymask : Nat
  /-- The table `lempel` of `uint16_t`. -/
  lempel : Nat → Nat

/-- What a call of `lzjb_compress` leaves behind. -/
structure CResult where
  /-- The returned `size_t`. -/
  ret : Nat
  /-- The bytes written to `dst`, in order, from `dst[0]` on. -/
  out : List Byte
  /-- Whether the call returned through `return (s_len)` of the headroom
  check. -/
  aborted : Bool
  deriving DecidableEq

/-- The byte `src[i]`. -/
def rd (src : List Byte) (i : Nat) : Nat := (src.getD i 0).val

/-- The three lines computing `hash` from `src[0]`, `src[1]`, `src[2]`. -/
def hashOf (b0 b1 b2 : Nat) : Nat :=
  let hash := (b0 <<< 16) + (b1 <<< 8) + b2
  let hash := hash + (hash >>> 9)
  let hash := hash + (hash >>> 5)
  hash

/-- The candidate `offset = (intptr_t)(src - *hp) & OFFSET_MASK`, where the
address of `src` is `a + spos` and `slot` is the value `*hp`. -/
def offsetOf (a spos slot : Nat) : Nat :=
  ((((a + spos : Nat) : Int) - (slot : Int)) % ((OFFSET_MASK + 1 : Nat) : Int)).toNat

/-- The loop `for (mlen = MATCH_MIN; mlen < MATCH_MAX; mlen++) if (src[mlen] !=
cpy[mlen]) break;` entered with the given value of `mlen`; the first argument
bounds the number of iterations. -/
def extend (src : List Byte) (spos cpy : Nat) : Nat → Nat → Nat
  | 0, mlen => mlen
  | fuel + 1, mlen =>
    if mlen < MATCH_MAX then
      if rd src (spos + mlen) ≠ rd src (cpy + mlen) then mlen
      else extend src spos cpy fuel (mlen + 1)
    else mlen

/-- First byte of a match token, `((mlen - MATCH_MIN) << (NBBY - MATCH_BITS)) |
(offset >> NBBY)`, stored into a byte. -/
def tokByte0 (mlen offset : Nat) : Byte :=
  toByte (((mlen - MATCH_MIN) <<< (NBBY - MATCH_BITS)) ||| (offset >>> NBBY))

/-- Second byte of a match token, `(uint8_t)offset`. -/
def tokByte1 (offset : Nat) : Byte := toByte offset

/-- The part of the loop body that allocates a copy-map byte: the result is
`none` when the headroom check returns, else the new `copymask`, `copymap` and
output. -/
def cMapStep (d_len : Nat) (st : CState) : Option (Nat × Nat × List Byte) :=
  if (st.copymask <<< 1) = (1 <<< NBBY) then
    if ((st.out.length : Int) ≥ (d_len : Int) - 1 - 2 * (NBBY : Int)) then none
    else some (1, st.out.length, st.out ++ [0])
  else some (st.copymask <<< 1, st.copymap, st.out)

/-- The condition of the `if` that accepts a match. -/
def cAccept (src : List Byte) (spos offset : Nat) : Bool :=
  decide (offset ≤ spos) &&
  (decide (rd src spos = rd src (spos - offset)) &&
    decide (rd src (spos + 1) = rd src (spos - offset + 1))) &&
  decide (rd src (spos + 2) = rd src (spos - offset + 2)) &&
  decide (spos - offset ≠ spos)

/-- One execution of the body of the loop of `lzjb_compress`, entered with
`src < s_start + s_len`. -/
def cBody (a : Nat) (src : List Byte) (d_len : Nat) (st : CState) :
    Step CResult CState :=
  match cMapStep d_len st with
  | none => .done ⟨src.length, st.out, true⟩
  | some ms =>
    let copymask := ms.1
    let copymap := ms.2.1
    let out := ms.2.2
    if (st.spos : Int) > (src.length : Int) - (MATCH_MAX : Int) then
      .next ⟨st.spos + 1, out ++ [src.getD st.spos 0], copymap, copymask, st.lempel⟩
    else
      let hash := hashOf (rd src st.spos) (rd src (st.spos + 1)) (rd src (st.spos + 2))
      let hp := hash &&& (LEMPEL_SIZE - 1)
      let offset := offsetOf a st.spos (st.lempel hp)
      let lempel := fun i => if i = hp then (a + st.spos) % 65536 else st.lempel i
      let cpy := st.spos - offset
      if cAccept src st.spos offset then
        let out := out.set copymap (toByte ((out.getD copymap 0).val ||| copymask))
        let mlen := extend src st.spos cpy (MATCH_MAX - MATCH_MIN) MATCH_MIN
        .next ⟨st.spos + mlen, out ++ [tokByte0 mlen offset, tokByte1 offset],
          copymap, copymask, lempel⟩
      else
        .next ⟨st.spos + 1, out ++ [src.getD st.spos 0], copymap, copymask, lempel⟩

/-- The loop of `lzjb_compress` and the `return` after it. -/
def cLoop (a : Nat) (src : List Byte) (d_len : Nat) : Nat → CState → Option CResult
  | 0, _ => none
  | fuel + 1, st =>
    if st.spos < src.length then
      match cBody a src d_len st with
      | .done r => some r
      | .next st' => cLoop a src d_len fuel st'
    else some ⟨st.out.length, st.out, false⟩

/-- The state of `lzjb_compress` when it enters its loop. -/
def cInit : CState := ⟨0, [], 0, 1 <<< (NBBY - 1), fun _ => 0⟩

/-- The function `lzjb_compress` on the source bytes `src` (so `s_len` is
`src.length`) placed at the address `a`, with destination capacity `d_len`. -/
def lzjb_compress (a : Nat) (src : List Byte) (d_len : Nat) : Option CResult :=
  cLoop a src d_len (src.length + 1) cInit

/-! ## The decoder -/

/-- The memory at `d_start`: the byte at each offset, and the offsets of the
stores made into it since the call, the latest first. -/
structure Mem where
  /-- The byte at each offset. -/
  val : Nat → Byte
  /-- The offsets of the stores made since the call, the latest first. -/
  log : List Nat

instance : CoeFun Mem (fun _ => Nat → Byte) := ⟨Mem.val⟩

instance : Coe Mem (Nat → Byte) := ⟨Mem.val⟩

/-- The local state of `lzjb_decompress` at the head of its loop, with the
destination memory. -/
structure DState where
  /-- The cursor `src - s_start`. -/
  spos : Nat
  /-- The cursor `dst - d_start`. -/
  dpos : Nat
  /-- The variable `copymap`. -/
  copymap : Nat
  /-- The variable `copymask`. -/
  copymask : Nat
  /-- The memory at `d_start`. -/
  dst : Mem
  /-- Whether some source byte at an index `≥ s_len` has been read. -/
  overread : Bool

/-- What a call of `lzjb_decompress` leaves behind. -/
structure DResult where
  /-- The returned status. -/
  status : LZJBResult
  /-- The value of `*d_len` after the call. -/
  d_len : Nat
  /-- The memory at `d_start` after the call. -/
  dst : Mem
  /-- The cursor `dst - d_start` at the return. -/
  dpos : Nat
  /-- The cursor `src - s_start` at the return. -/
  spos : Nat
  /-- Whether some source byte at an index `≥ s_len` has been read. -/
  overread : Bool

/-- The store `*p = v` into a memory. -/
def wr (m : Mem) (p : Nat) (v : Byte) : Mem :=
  ⟨fun i => if i = p then v else m.val i, p :: m.log⟩

/-- The loop `while (--mlen >= 0) *dst++ = *cpy++;` with `dst` and `cpy`
given as offsets from `d_start`. -/
def copyLoop : Nat → Nat → Nat → Mem → Mem
  | 0, _, _, m => m
  | mlen + 1, dst, cpy, m => copyLoop mlen (dst + 1) (cpy + 1) (wr m dst (m cpy))

/-- The part of the loop body that reads a copy-map byte: the new `copymask`,
`copymap` and source cursor. -/
def dMapStep (src : Nat → Byte) (st : DState) : Nat × Nat × Nat :=
  if (st.copymask <<< 1) = (1 <<< NBBY) then (1, (src st.spos).val, st.spos + 1)
  else (st.copymask <<< 1, st.copymap, st.spos)

/-- The field `mlen` of the match token `b0 b1`. -/
def tokMlen (b0 : Byte) : Nat := (b0.val >>> (NBBY - MATCH_BITS)) + MATCH_MIN

/-- The field `offset` of the match token `b0 b1`. -/
def tokOffset (b0 b1 : Byte) : Nat := ((b0.val <<< NBBY) ||| b1.val) &&& OFFSET_MASK

/-- One execution of the body of the loop of `lzjb_decompress`, entered with
`src < s_end`; `cap` is the value of `*d_len` at the call. -/
def dBody (src : Nat → Byte) (s_len cap : Nat) (st : DState) :
    Step DResult DState :=
  if st.dpos ≥ cap then
    .done ⟨LZJB_WOULD_OVERFLOW, cap, st.dst, st.dpos, st.spos, st.overread⟩
  else
    let ms := dMapStep src st
    let copymask := ms.1
    let copymap := ms.2.1
    let spos := ms.2.2
    if copymap &&& copymask ≠ 0 then
      let mlen := tokMlen (src spos)
      let offset := tokOffset (src spos) (src (spos + 1))
      let over := st.overread || decide (s_len ≤ spos + 1)
      if offset > st.dpos then
        .done ⟨LZJB_BAD_DATA, cap, st.dst, st.dpos, spos + 2, over⟩
      else if mlen > cap - st.dpos then
        .done ⟨LZJB_WOULD_OVERFLOW, cap, st.dst, st.dpos, spos + 2, over⟩
      else
        .next ⟨spos + 2, st.dpos + mlen, copymap, copymask,
          copyLoop mlen st.dpos (st.dpos - offset) st.dst, over⟩
    else
      .next ⟨spos + 1, st.dpos + 1, copymap, copymask,
        wr st.dst st.dpos (src spos), st.overread || decide (s_len ≤ spos)⟩

/-- The loop of `lzjb_decompress` and the two statements after it. -/
def dLoop (src : Nat → Byte) (s_len cap : Nat) : Nat → DState → Option DResult
  | 0, _ => none
  | fuel + 1, st =>
    if st.spos < s_len then
      match dBody src s_len cap st with
      | .done r => some r
      | .next st' => dLoop src s_len cap fuel st'
    else some ⟨LZJB_OK, st.dpos, st.dst, st.dpos, st.spos, st.overread⟩

/-- The state of `lzjb_decompress` when it enters its loop: no store has been
made into the destination memory `dst`. -/
def dInit (dst : Nat → Byte) : DState := ⟨0, 0, 0, 1 <<< (NBBY - 1), ⟨dst, []⟩, false⟩

/-- The function `lzjb_decompress` on the source memory `src` with length
`s_len`, the destination memory `dst` and the capacity `cap` (the value of
`*d_len` at the call). -/
def lzjb_decompress (src : Nat → Byte) (s_len : Nat) (dst : Nat → Byte) (cap : Nat) :
    Option DResult :=
  dLoop src s_len cap (s_len + 1) (dInit dst)

/-- The memory holding the bytes of a list from offset `0` on (and zeros
after them). -/
def memOf (l : List Byte) : Nat → Byte := fun i => l.getD i 0

/-- The first `n` bytes of a memory. -/
def bytesOf (m : Nat → Byte) (n : Nat) : List Byte := (List.range n).map m

/-! ## Tokens

The definitions below are not in the source: they describe the stream of
tokens that the encoder emits and the decoder consumes, and are what the
proofs of the theorems are built on. -/

/-- A token of the stream: a literal byte, or a match with its two fields. -/
inductive Tok where
  | lit (b : Byte)
  | mat (mlen offset : Nat)

/-- Whether the token is a match (a back-reference). -/
def Tok.isMat : Tok → Bool
  | .lit _ => false
  | .mat _ _ => true

/-- The bytes of a token in the stream. -/
def Tok.bytes : Tok → List Byte
  | .lit b => [b]
  | .mat mlen offset => [tokByte0 mlen offset, tokByte1 offset]

/-- The number of bytes of the uncompressed data that a token stands for. -/
def Tok.span : Tok → Nat
  | .lit _ => 1
  | .mat mlen _ => mlen

/-- The token stands for the bytes of `X` from position `p` on. -/
def Tok.ok (X : List Byte) (p : Nat) : Tok → Prop
  | .lit b => p < X.length ∧ X.getD p 0 = b
  | .mat mlen offset =>
    3 ≤ mlen ∧ mlen ≤ 66 ∧ 1 ≤ offset ∧ offset ≤ 1023 ∧ offset ≤ p ∧ p + mlen ≤ X.length ∧
      ∀ i, i < mlen → X.getD (p + i) 0 = X.getD (p - offset + i) 0

/-- The tokens stand, one after the other, for the bytes of `X` from position
`p` on. -/
def toksOk (X : List Byte) : Nat → List Tok → Prop
  | _, [] => True
  | p, t :: ts => t.ok X p ∧ toksOk X (p + t.span) ts

/-- The number of uncompressed bytes that a list of tokens stands for. -/
def spanSum : List Tok → Nat
  | [] => 0
  | t :: ts => t.span + spanSum ts

/-- The bytes of a list of tokens, without copy-map bytes. -/
def toksBytes : List Tok → List Byte
  | [] => []
  | t :: ts => t.bytes ++ toksBytes ts

/-- The copy-map byte of a group of tokens: bit `i` (of weight `2 ^ i`) is set
when the `i`-th token of the group is a match. -/
def mapByte : List Tok → Nat
  | [] => 0
  | t :: ts => (if t.isMat then 1 else 0) + 2 * mapByte ts

/-- The bytes of a group of tokens: its copy-map byte, then its tokens. -/
def serG (g : List Tok) : List Byte := toByte (mapByte g) :: toksBytes g

/-- The bytes of a list of groups. -/
def serGs : List (List Tok) → List Byte
  | [] => []
  | g :: gs => serG g ++ serGs gs

/-- The bytes of the last group, which has no copy-map byte when it has no
token. -/
def serCur : List Tok → List Byte
  | [] => []
  | t :: ts => serG (t :: ts)

/-- The tokens of a list of groups. -/
def joinG : List (List Tok) → List Tok
  | [] => []
  | g :: gs => g ++ joinG gs

/-- The bytes `bs` are what the decoder, whose variables `copymask` and
`copymap` hold `m` and `cm`, decodes as the tokens `toks` and nothing more. -/
def Enc : List Tok → Nat → Nat → List Byte → Prop
  | [], _, _, bs => bs = []
  | t :: ts, m, cm, bs =>
    if m <<< 1 = 256 then
      ∃ (mb : Byte) (bs' : List Byte), bs = mb :: (t.bytes ++ bs') ∧
        (mb.val &&& 1 ≠ 0 ↔ t.isMat = true) ∧ Enc ts 1 mb.val bs'
    else
      ∃ bs' : List Byte, bs = t.bytes ++ bs' ∧
        (cm &&& (m <<< 1) ≠ 0 ↔ t.isMat = true) ∧ Enc ts (m <<< 1) cm bs'

/-- What the decoder returns on the stream of an encoder that did not abort
on the source `X`, when the capacity is `cap`. -/
def DecodesTo (X : List Byte) (cap : Nat) (r : DResult) : Prop :=
  r.overread = false ∧
  ((r.status = LZJB_OK ∧ r.d_len = X.length ∧ X.length ≤ cap ∧
      ∀ i, i < X.length → r.dst i = X.getD i 0) ∨
    (r.status = LZJB_WOULD_OVERFLOW ∧ cap < X.length ∧ r.d_len = cap))

/-- The invariant of the loop of the encoder: the output is the bytes of full
groups of eight tokens followed by those of a shorter last group, and the
tokens stand for the source up to the cursor. -/
def EInv (X : List Byte) (st : CState) : Prop :=
  ∃ (gs : List (List Tok)) (g : List Tok),
    (∀ x, x ∈ gs → x.length = 8) ∧ g.length < 8 ∧
    st.out = serGs gs ++ serCur g ∧
    st.copymask = 2 ^ ((g.length + 7) % 8) ∧
    (g ≠ [] → st.copymap = (serGs gs).length) ∧
    toksOk X 0 (joinG gs ++ g) ∧
    st.spos = spanSum (joinG gs ++ g)

/-! ## Runs of the decoder

The states that the loop of the decoder goes through, and what its body reads
at the cursor. -/

/-- One iteration of the loop of `lzjb_decompress` that does not leave the
loop: the state at the head of the next iteration. -/
def dStep (src : Nat → Byte) (s_len cap : Nat) (st : DState) : Option DState :=
  if st.spos < s_len then
    match dBody src s_len cap st with
    | .next st' => some st'
    | .done _ => none
  else none

/-- The state at the head of the loop after `k` iterations (that is after `k`
tokens have been decoded) from the state `st`. -/
def dIter (src : Nat → Byte) (s_len cap : Nat) : Nat → DState → Option DState
  | 0, st => some st
  | k + 1, st => (dIter src s_len cap k st).bind (dStep src s_len cap)

/-- The condition `copymap & copymask` of the body of the decoder in the state
`st`: the token at the cursor is decoded as a back-reference. -/
def dIsMatch (src : Nat → Byte) (st : DState) : Prop :=
  (dMapStep src st).2.1 &&& (dMapStep src st).1 ≠ 0

instance (src : Nat → Byte) (st : DState) : Decidable (dIsMatch src st) := by
  unfold dIsMatch; exact inferInstance

/-- The field `mlen` that the body of the decoder decodes in the state `st`
when the token at the cursor is a back-reference. -/
def dMlen (src : Nat → Byte) (st : DState) : Nat :=
  tokMlen (src (dMapStep src st).2.2)

/-- The field `offset` that the body of the decoder decodes in the state `st`
when the token at the cursor is a back-reference. -/
def dOffset (src : Nat → Byte) (st : DState) : Nat :=
  tokOffset (src (dMapStep src st).2.2) (src ((dMapStep src st).2.2 + 1))

/-! ## Examples -/

/-- A source of 67 bytes: eleven `a` and fifty-six `b`. -/
def exSrc : List Byte := List.replicate 11 97 ++ List.replicate 56 98

/-- What `lzjb_compress` returns and writes on `exSrc`: the literal `a`, a
match of length 10 and offset 1, and the fifty-six `b` as literals. -/
def exOut : CResult :=
  ⟨67, [2, 97, 28, 1, 98, 98, 98, 98, 98, 98,
    0, 98, 98, 98, 98, 98, 98, 98, 98, 0, 98, 98, 98, 98, 98, 98, 98, 98,
    0, 98, 98, 98, 98, 98, 98, 98, 98, 0, 98, 98, 98, 98, 98, 98, 98, 98,
    0, 98, 98, 98, 98, 98, 98, 98, 98, 0, 98, 98, 98, 98, 98, 98, 98, 98,
    0, 98, 98], false⟩

/-! ## Steps of the encoder

What the body of the loop of the encoder computes at the cursor, under the
names used in the statements of the theorems. -/

/-- The condition `src > s_start + s_len - MATCH_MAX` in the state `st`: the
byte at the cursor is emitted as a literal without looking at the table. -/
def cShort (X : List Byte) (st : CState) : Prop :=
  (st.spos : Int) > (X.length : Int) - (MATCH_MAX : Int)

instance (X : List Byte) (st : CState) : Decidable (cShort X st) := by
  unfold cShort; exact inferInstance

/-- The index `hash & (LEMPEL_SIZE - 1)` of the slot `hp` in the state `st`. -/
def cHp (X : List Byte) (st : CState) : Nat :=
  hashOf (rd X st.spos) (rd X (st.spos + 1)) (rd X (st.spos + 2)) &&& (LEMPEL_SIZE - 1)

/-- The candidate `offset` computed in the state `st`. -/
def cOffset (a : Nat) (X : List Byte) (st : CState) : Nat :=
  offsetOf a st.spos (st.lempel (cHp X st))

/-- The value of `mlen` after the extension loop in the state `st`. -/
def cMlen (a : Nat) (X : List Byte) (st : CState) : Nat :=
  extend X st.spos (st.spos - cOffset a X st) (MATCH_MAX - MATCH_MIN) MATCH_MIN

/-- The body of the loop emits a match token in the state `st`: the cursor is
not within `MATCH_MAX` of the end and the candidate is accepted. -/
def cIsMatch (a : Nat) (X : List Byte) (st : CState) : Prop :=
  ¬ cShort X st ∧ cAccept X st.spos (cOffset a X st) = true

instance (a : Nat) (X : List Byte) (st : CState) : Decidable (cIsMatch a X st) := by
  unfold cIsMatch; exact inferInstance

/-- The table after the body of the loop has looked at the slot of the state
`st`: the slot holds the low 16 bits of the address of the cursor. -/
def cTable (a : Nat) (X : List Byte) (st : CState) : Nat → Nat :=
  fun i => if i = cHp X st then (a + st.spos) % 65536 else st.lempel i

/-! ## Streams of literals -/

/-- The bytes of `X` with a zero byte before each group of eight, the first
byte of `X` being the `k`-th of its group when `k < 8`. -/
def litFrom : Nat → List Byte → List Byte
  | _, [] => []
  | k, x :: xs => (if k % 8 = 0 then [0, x] else [x]) ++ litFrom (k + 1) xs

/-- The bytes of `X` with one zero copy-map byte inserted before each group of
eight bytes (the last group possibly shorter). -/
def litStream (X : List Byte) : List Byte := litFrom 0 X

/-- The invariant of the loop of the encoder on a source shorter than
`MATCH_MAX`: the output is the stream of literals of the source up to the
cursor. -/
def LInv (X : List Byte) (st : CState) : Prop :=
  st.spos ≤ X.length ∧ st.out = litStream (X.take st.spos) ∧
  st.copymask = 2 ^ ((st.spos + 7) % 8) ∧
  st.out.length = st.spos + (st.spos + 7) / 8

/-- The invariant of the loop of the encoder on the room left in the
destination: within a group, the copy-map byte was allocated with more than
17 bytes left and the group has written at most `1 + 2 * j` bytes after `j`
tokens. -/
def WInv (d_len : Nat) (st : CState) : Prop :=
  st.out.length ≤ d_len ∧
  (st.copymask = 128 ∨
    ∃ j, 1 ≤ j ∧ j ≤ 7 ∧ st.copymask = 2 ^ (j - 1) ∧
      st.out.length ≤ st.copymap + 1 + 2 * j ∧ st.copymap + 17 < d_len)

/-- Two tables agree on the low ten bits of every slot. -/
def TableCongr (l1 l2 : Nat → Nat) : Prop := ∀ i, l1 i % 1024 = l2 i % 1024

/-- A source of 72 bytes: `aaaaab`, `aab` and sixty-three `c`. -/
def exAddr : List Byte := [97, 97, 97, 97, 97, 98, 97, 97, 98] ++ List.replicate 63 99

/-- Two states of the encoder that differ in the table only, the two tables
agreeing on the low ten bits of every slot. -/
def CSim (st1 st2 : CState) : Prop :=
  st1.spos = st2.spos ∧ st1.out = st2.out ∧ st1.copymap = st2.copymap ∧
  st1.copymask = st2.copymask ∧ TableCongr st1.lempel st2.lempel

/-! ## Lemmas -/

theorem shl_or_eq (x y k : Nat) (h : y < 2 ^ k) : (x <<< k) ||| y = 2 ^ k * x + y := by
  rw [Nat.shiftLeft_eq, Nat.mul_comm, ← Nat.mul_add_lt_is_or h]

theorem tokByte0_val (mlen offset : Nat) (h1 : 3 ≤ mlen) (h2 : mlen ≤ 66) (h3 : offset ≤ 1023) :
    (tokByte0 mlen offset).val = 4 * (mlen - 3) + offset / 256 := by
  have h : offset >>> 8 < 2 ^ 2 := by
    rw [Nat.shiftRight_eq_div_pow]; norm_num; omega
  simp only [tokByte0, toByte, MATCH_MIN, NBBY, MATCH_BITS]
  rw [show (8 - 6 : Nat) = 2 from rfl, shl_or_eq _ _ _ h, Nat.shiftRight_eq_div_pow]
  norm_num
  omega

theorem tokByte1_val (offset : Nat) : (tokByte1 offset).val = offset % 256 := rfl

theorem tokMlen_val (b0 : Byte) : tokMlen b0 = b0.val / 4 + 3 := by
  simp only [tokMlen, MATCH_MIN, NBBY, MATCH_BITS]
  rw [show (8 - 6 : Nat) = 2 from rfl, Nat.shiftRight_eq_div_pow]

theorem tokOffset_val (b0 b1 : Byte) : tokOffset b0 b1 = (256 * b0.val + b1.val) % 1024 := by
  have h : b1.val < 2 ^ 8 := b1.isLt
  simp only [tokOffset, OFFSET_MASK, NBBY, MATCH_BITS]
  rw [shl_or_eq _ _ _ h]
  have := Nat.and_pow_two_sub_one_eq_mod (2 ^ 8 * b0.val + b1.val) 10
  norm_num at this ⊢
  exact this

theorem tok_roundtrip (mlen offset : Nat) (h1 : 3 ≤ mlen) (h2 : mlen ≤ 66) (h3 : offset ≤ 1023) :
    tokMlen (tokByte0 mlen offset) = mlen ∧
    tokOffset (tokByte0 mlen offset) (tokByte1 offset) = offset := by
  rw [tokMlen_val, tokOffset_val, tokByte0_val _ _ h1 h2 h3, tokByte1_val]
  omega

theorem wr_same (m : Mem) (p : Nat) (v : Byte) : wr m p v p = v := by simp [wr]

theorem wr_other (m : Mem) (p i : Nat) (v : Byte) (h : i ≠ p) : wr m p v i = m i := by
  simp [wr, h]

theorem copyLoop_frame (k : Nat) : ∀ (d c : Nat) (m : Mem) (i : Nat),
    (i < d ∨ d + k ≤ i) → copyLoop k d c m i = m i := by
  induction k with
  | zero => intro d c m i _; rfl
  | succ k ih =>
    intro d c m i h
    rw [copyLoop, ih (d + 1) (c + 1) _ i (by omega), wr_other _ _ _ _ (by omega)]

theorem dMapStep_spos (src : Nat → Byte) (st : DState) :
    st.spos ≤ (dMapStep src st).2.2 ∧ (dMapStep src st).2.2 ≤ st.spos + 1 := by
  unfold dMapStep; split <;> simp

theorem dBody_next_spos {src : Nat → Byte} {s_len cap : Nat} {st st' : DState}
    (h : dBody src s_len cap st = .next st') : st.spos < st'.spos := by
  have hs := dMapStep_spos src st
  unfold dBody at h
  simp only at h
  split_ifs at h <;> cases h <;> simp <;> omega

theorem dLoop_total (src : Nat → Byte) (s_len cap : Nat) :
    ∀ (fuel : Nat) (st : DState), s_len < st.spos + fuel → 0 < fuel →
      ∃ r, dLoop src s_len cap fuel st = some r := by
  intro fuel
  induction fuel with
  | zero => intro st _ h; omega
  | succ f ih =>
    intro st h _
    rw [dLoop]
    split_ifs with hlt
    · cases hb : dBody src s_len cap st with
      | done r => exact ⟨r, rfl⟩
      | next st' =>
        have := dBody_next_spos hb
        exact ih st' (by omega) (by omega)
    · exact ⟨_, rfl⟩

theorem dLoop_mono (src : Nat → Byte) (s_len cap : Nat) :
    ∀ (fuel : Nat) (st : DState) (r : DResult), dLoop src s_len cap fuel st = some r →
      ∀ k, dLoop src s_len cap (fuel + k) st = some r := by
  intro fuel
  induction fuel with
  | zero => intro st r h; simp [dLoop] at h
  | succ f ih =>
    intro st r h k
    rw [show f + 1 + k = (f + k) + 1 by omega, dLoop]
    rw [dLoop] at h
    split_ifs at h ⊢ with hlt
    · cases hb : dBody src s_len cap st with
      | done r' => rw [hb] at h; exact h
      | next st' => rw [hb] at h; exact ih st' r h k
    · exact h

/-- Invariant rule for the loop of the decoder. -/
theorem dLoop_inv (src : Nat → Byte) (s_len cap : Nat) (P : DState → Prop) (Q : DResult → Prop)
    (hnext : ∀ st st', P st → st.spos < s_len → dBody src s_len cap st = .next st' → P st')
    (hdone : ∀ st r, P st → st.spos < s_len → dBody src s_len cap st = .done r → Q r)
    (hexit : ∀ st, P st → ¬ st.spos < s_len →
      Q ⟨LZJB_OK, st.dpos, st.dst, st.dpos, st.spos, st.overread⟩) :
    ∀ (fuel : Nat) (st : DState) (r : DResult), P st →
      dLoop src s_len cap fuel st = some r → Q r := by
  intro fuel
  induction fuel with
  | zero => intro st r _ h; simp [dLoop] at h
  | succ f ih =>
    intro st r hP h
    rw [dLoop] at h
    split_ifs at h with hlt
    · cases hb : dBody src s_len cap st with
      | done r' =>
        rw [hb] at h
        cases h
        exact hdone st _ hP hlt hb
      | next st' =>
        rw [hb] at h
        exact ih st' r (hnext st st' hP hlt hb) h
    · cases h
      exact hexit st hP hlt

theorem lzjb_decompress_total (src : Nat → Byte) (s_len : Nat) (dst : Nat → Byte) (cap : Nat) :
    ∃ r, lzjb_decompress src s_len dst cap = some r :=
  dLoop_total src s_len cap (s_len + 1) (dInit dst) (by simp [dInit]) (by omega)

theorem copyLoop_spec (X : List Byte) (k : Nat) : ∀ (d o : Nat) (m : Mem),
    o ≤ d → 1 ≤ o → (∀ i, i < d → m i = X.getD i 0) →
    (∀ i, i < k → X.getD (d + i) 0 = X.getD (d - o + i) 0) →
    ∀ i, i < d + k → copyLoop k d (d - o) m i = X.getD i 0 := by
  induction k with
  | zero => intro d o m _ _ hm _ i hi; exact hm i hi
  | succ k ih =>
    intro d o m hod ho hm hX i hi
    rw [copyLoop, show d - o + 1 = (d + 1) - o by omega]
    apply ih (d + 1) o _ (by omega) ho
    · intro j hj
      by_cases hjd : j = d
      · subst hjd
        rw [wr_same, hm _ (by omega)]
        have := hX 0 (by omega)
        simpa using this.symm
      · rw [wr_other _ _ _ _ hjd]; exact hm j (by omega)
    · intro j hj
      have := hX (j + 1) (by omega)
      rw [show d + 1 + j = d + (j + 1) by omega, show d + 1 - o + j = d - o + (j + 1) by omega]
      exact this
    · omega

theorem Tok.bytes_length_pos (t : Tok) : 0 < t.bytes.length := by
  cases t <;> simp [Tok.bytes]

theorem Tok.ok_span_pos {X : List Byte} {p : Nat} {t : Tok} (h : t.ok X p) :
    1 ≤ t.span ∧ p + t.span ≤ X.length := by
  cases t with
  | lit b => simp only [Tok.ok] at h; simp only [Tok.span]; omega
  | mat m o => simp only [Tok.ok] at h; simp only [Tok.span]; omega

/-- What the copy-map part of the body of the decoder finds at the head of a
stream that encodes a token. -/
theorem Enc_cons_mapStep (src : Nat → Byte) (s_len : Nat) (st : DState) (t : Tok)
    (ts : List Tok) (bs : List Byte)
    (hE : Enc (t :: ts) st.copymask st.copymap bs)
    (hsrc : ∀ i, i < bs.length → src (st.spos + i) = bs.getD i 0)
    (hlen : s_len = st.spos + bs.length) :
    ∃ bs' : List Byte,
      (∀ i, i < (t.bytes ++ bs').length →
        src ((dMapStep src st).2.2 + i) = (t.bytes ++ bs').getD i 0) ∧
      s_len = (dMapStep src st).2.2 + (t.bytes ++ bs').length ∧
      ((dMapStep src st).2.1 &&& (dMapStep src st).1 ≠ 0 ↔ t.isMat = true) ∧
      Enc ts (dMapStep src st).1 (dMapStep src st).2.1 bs' ∧ st.spos < s_len := by
  have h256 : (1 <<< NBBY) = 256 := rfl
  have htb := t.bytes_length_pos
  unfold Enc at hE
  unfold dMapStep
  rw [h256]
  split_ifs at hE ⊢ with hm
  · obtain ⟨mb, bs', hbs, hbit, hE'⟩ := hE
    subst hbs
    have h0 := hsrc 0 (by simp)
    simp only [Nat.add_zero, List.getD_cons_zero] at h0
    dsimp only
    refine ⟨bs', ?_, ?_, ?_, ?_, ?_⟩
    · intro i hi
      have := hsrc (i + 1) (by simp at hi ⊢; omega)
      simp only [List.getD_cons_succ] at this
      rw [← this]; congr 1; omega
    · simp at hlen ⊢; omega
    · simpa [h0] using hbit
    · simpa [h0] using hE'
    · simp at hlen; omega
  · obtain ⟨bs', hbs, hbit, hE'⟩ := hE
    subst hbs
    dsimp only
    refine ⟨bs', hsrc, hlen, hbit, hE', ?_⟩
    simp at hlen htb; omega

/-- The decoder, started on a stream that encodes tokens standing for the rest
of `X`, returns `LZJB_OK` with `X` in the destination, or
`LZJB_WOULD_OVERFLOW` when the capacity is less than the length of `X`. -/
theorem dLoop_Enc (src : Nat → Byte) (s_len cap : Nat) (X : List Byte) :
    ∀ (toks : List Tok) (st : DState) (bs : List Byte),
      Enc toks st.copymask st.copymap bs →
      (∀ i, i < bs.length → src (st.spos + i) = bs.getD i 0) →
      s_len = st.spos + bs.length →
      toksOk X st.dpos toks →
      st.dpos + spanSum toks = X.length →
      (∀ i, i < st.dpos → st.dst i = X.getD i 0) →
      st.dpos ≤ cap →
      st.overread = false →
      ∃ fuel r, dLoop src s_len cap fuel st = some r ∧ DecodesTo X cap r := by
  intro toks
  induction toks with
  | nil =>
    intro st bs hE _ hlen _ hn hdst hcap hov
    simp only [Enc] at hE
    subst hE
    refine ⟨1, ⟨LZJB_OK, st.dpos, st.dst, st.dpos, st.spos, st.overread⟩, ?_, ?_⟩
    · rw [dLoop, if_neg (by simp at hlen; omega)]
    · simp only [spanSum] at hn
      refine ⟨hov, Or.inl ⟨rfl, by simpa using hn, by omega, ?_⟩⟩
      intro i hi
      exact hdst i (by omega)
  | cons t ts ih =>
    intro st bs hE hsrc hlen hok hn hdst hcap hov
    obtain ⟨bs', hsrc', hlen', hbit, hE', hlt⟩ := Enc_cons_mapStep src s_len st t ts bs hE hsrc hlen
    simp only [toksOk] at hok
    obtain ⟨htok, hok'⟩ := hok
    simp only [spanSum] at hn
    have hspan := Tok.ok_span_pos htok
    by_cases hfull : st.dpos ≥ cap
    · refine ⟨1, ⟨LZJB_WOULD_OVERFLOW, cap, st.dst, st.dpos, st.spos, st.overread⟩, ?_, ?_⟩
      · rw [dLoop, if_pos hlt]
        simp only [dBody, if_pos hfull]
      · exact ⟨hov, Or.inr ⟨rfl, by omega, rfl⟩⟩
    · cases t with
      | lit b =>
        simp only [Tok.isMat, Tok.bytes, Tok.ok, Tok.span] at hbit hsrc' hlen' htok hok' hn
        have hnb : ¬ ((dMapStep src st).2.1 &&& (dMapStep src st).1 ≠ 0) := by
          rw [hbit]; simp
        have hb := hsrc' 0 (by simp)
        simp only [Nat.add_zero, List.singleton_append, List.getD_cons_zero] at hb
        obtain ⟨fuel, r, hr, hD⟩ := ih
          ⟨(dMapStep src st).2.2 + 1, st.dpos + 1, (dMapStep src st).2.1, (dMapStep src st).1,
            wr st.dst st.dpos (src (dMapStep src st).2.2),
            st.overread || decide (s_len ≤ (dMapStep src st).2.2)⟩ bs' hE'
          (by
            intro i hi
            have := hsrc' (i + 1) (by simp; omega)
            simp only [List.singleton_append, List.getD_cons_succ] at this
            rw [← this]; dsimp only; congr 1; omega)
          (by simp at hlen' ⊢; omega)
          hok'
          (by dsimp only; omega)
          (by
            intro i hi
            dsimp only at hi ⊢
            by_cases hid : i = st.dpos
            · subst hid; rw [wr_same, hb]; exact htok.2.symm
            · rw [wr_other _ _ _ _ hid]; exact hdst i (by omega))
          (by dsimp only; omega)
          (by
            dsimp only
            simp only [hov, Bool.false_or, decide_eq_false_iff_not]
            simp at hlen'; omega)
        refine ⟨fuel + 1, r, ?_, hD⟩
        rw [dLoop, if_pos hlt]
        simp only [dBody, if_neg hfull, if_neg hnb]
        exact hr
      | mat m o =>
        simp only [Tok.isMat, Tok.bytes, Tok.ok, Tok.span] at hbit hsrc' hlen' htok hok' hn
        have hyb : (dMapStep src st).2.1 &&& (dMapStep src st).1 ≠ 0 := by
          rw [hbit]; trivial
        obtain ⟨hm3, hm66, ho1, ho1023, hop, hpm, hX⟩ := htok
        have hb0 := hsrc' 0 (by simp)
        have hb1 := hsrc' 1 (by simp)
        simp only [Nat.add_zero, List.cons_append, List.getD_cons_zero, List.getD_cons_succ,
          List.nil_append] at hb0 hb1
        have hrt := tok_roundtrip m o hm3 hm66 ho1023
        have hml : tokMlen (src (dMapStep src st).2.2) = m := by rw [hb0]; exact hrt.1
        have hof : tokOffset (src (dMapStep src st).2.2) (src ((dMapStep src st).2.2 + 1)) = o := by
          rw [hb0, hb1]; exact hrt.2
        by_cases hroom : m > cap - st.dpos
        · refine ⟨1, ⟨LZJB_WOULD_OVERFLOW, cap, st.dst, st.dpos, (dMapStep src st).2.2 + 2,
            st.overread || decide (s_len ≤ (dMapStep src st).2.2 + 1)⟩, ?_, ?_⟩
          · rw [dLoop, if_pos hlt]
            simp only [dBody, if_neg hfull, if_pos hyb, hml, hof, if_neg (show ¬ o > st.dpos by omega),
              if_pos hroom]
          · refine ⟨?_, Or.inr ⟨rfl, by omega, rfl⟩⟩
            simp only [hov, Bool.false_or, decide_eq_false_iff_not]
            simp at hlen'; omega
        · obtain ⟨fuel, r, hr, hD⟩ := ih
            ⟨(dMapStep src st).2.2 + 2, st.dpos + m, (dMapStep src st).2.1, (dMapStep src st).1,
              copyLoop m st.dpos (st.dpos - o) st.dst,
              st.overread || decide (s_len ≤ (dMapStep src st).2.2 + 1)⟩ bs' hE'
            (by
              intro i hi
              have := hsrc' (i + 2) (by simp; omega)
              simp only [List.cons_append, List.getD_cons_succ, List.nil_append] at this
              rw [← this]; dsimp only; congr 1; omega)
            (by simp at hlen' ⊢; omega)
            hok'
            (by dsimp only; omega)
            (by
              intro i hi
              dsimp only at hi ⊢
              exact copyLoop_spec X m st.dpos o st.dst hop ho1 hdst hX i hi)
            (by dsimp only; omega)
            (by
              dsimp only
              simp only [hov, Bool.false_or, decide_eq_false_iff_not]
              simp at hlen'; omega)
          refine ⟨fuel + 1, r, ?_, hD⟩
          rw [dLoop, if_pos hlt]
          simp only [dBody, if_neg hfull, if_pos hyb, hml, hof, if_neg (show ¬ o > st.dpos by omega),
            if_neg hroom]
          exact hr

theorem and_two_pow_ne_zero (x i : Nat) : x &&& 2 ^ i ≠ 0 ↔ x.testBit i = true := by
  rw [Nat.and_two_pow]
  cases h : x.testBit i <;> simp [Nat.pos_pow_of_pos]

theorem mapByte_lt (g : List Tok) : mapByte g < 2 ^ g.length := by
  induction g with
  | nil => simp [mapByte]
  | cons t ts ih =>
    simp only [mapByte, List.length_cons, pow_succ]
    split <;> omega

theorem mapByte_testBit (done : List Tok) (t : Tok) (ts : List Tok) :
    (mapByte (done ++ t :: ts)).testBit done.length = t.isMat := by
  induction done with
  | nil =>
    simp only [List.nil_append, mapByte, List.length_nil, Nat.testBit_zero]
    cases t.isMat <;> simp
  | cons d ds ih =>
    rw [List.cons_append, mapByte, List.length_cons, Nat.testBit_succ]
    rw [show ((if d.isMat = true then 1 else 0) + 2 * mapByte (ds ++ t :: ts)) / 2
      = mapByte (ds ++ t :: ts) by split <;> omega]
    exact ih

theorem mapByte_snoc (g : List Tok) (t : Tok) :
    mapByte (g ++ [t]) = mapByte g + (if t.isMat then 2 ^ g.length else 0) := by
  induction g with
  | nil => simp [mapByte]
  | cons d ds ih =>
    rw [List.cons_append, mapByte, ih, mapByte, List.length_cons, pow_succ]
    split <;> split <;> omega

theorem toksOk_append (X : List Byte) (l l' : List Tok) : ∀ p,
    toksOk X p (l ++ l') ↔ toksOk X p l ∧ toksOk X (p + spanSum l) l' := by
  induction l with
  | nil => intro p; simp [toksOk, spanSum]
  | cons t ts ih =>
    intro p
    rw [List.cons_append, toksOk, toksOk, spanSum, ih, and_assoc, Nat.add_assoc]

theorem spanSum_append (l l' : List Tok) : spanSum (l ++ l') = spanSum l + spanSum l' := by
  induction l with
  | nil => simp [spanSum]
  | cons t ts ih => rw [List.cons_append, spanSum, spanSum, ih, Nat.add_assoc]

theorem toksBytes_append (l l' : List Tok) :
    toksBytes (l ++ l') = toksBytes l ++ toksBytes l' := by
  induction l with
  | nil => simp [toksBytes]
  | cons t ts ih => rw [List.cons_append, toksBytes, toksBytes, ih, List.append_assoc]

theorem joinG_append (gs : List (List Tok)) (g : List Tok) :
    joinG (gs ++ [g]) = joinG gs ++ g := by
  induction gs with
  | nil => simp [joinG]
  | cons x xs ih => rw [List.cons_append, joinG, joinG, ih, List.append_assoc]

theorem serGs_append (gs : List (List Tok)) (g : List Tok) :
    serGs (gs ++ [g]) = serGs gs ++ serG g := by
  induction gs with
  | nil => simp [serGs]
  | cons x xs ih => rw [List.cons_append, serGs, serGs, ih, List.append_assoc]

theorem toksOk_le (X : List Byte) (l : List Tok) : ∀ p, p ≤ X.length → toksOk X p l →
    p + spanSum l ≤ X.length := by
  induction l with
  | nil => intro p hp _; simpa [spanSum] using hp
  | cons t ts ih =>
    intro p _ h
    simp only [toksOk] at h
    have := ih (p + t.span) (Tok.ok_span_pos h.1).2 h.2
    simp only [spanSum]; omega

theorem Enc_any_map (toks : List Tok) (cm cm' : Nat) (bs : List Byte)
    (h : Enc toks 128 cm bs) : Enc toks 128 cm' bs := by
  cases toks with
  | nil => simpa [Enc] using h
  | cons t ts => simpa [Enc] using h

theorem Enc_mid (cm : Nat) (later : List Tok) (lb : List Byte) :
    ∀ (rest done : List Tok), done ≠ [] → (done ++ rest).length ≤ 8 →
      cm = mapByte (done ++ rest) →
      (((done ++ rest).length = 8 ∧ Enc later 128 cm lb) ∨ (later = [] ∧ lb = [])) →
      Enc (rest ++ later) (2 ^ (done.length - 1)) cm (toksBytes rest ++ lb) := by
  intro rest
  induction rest with
  | nil =>
    intro done _ _ _ h
    simp only [List.append_nil, List.nil_append, toksBytes] at h ⊢
    rcases h with ⟨h8, hE⟩ | ⟨h1, h2⟩
    · rw [h8]; exact hE
    · subst h1 h2; simp [Enc]
  | cons t ts ih =>
    intro done hne hlen hcm h
    have hk1 : 1 ≤ done.length := by
      cases done with
      | nil => exact absurd rfl hne
      | cons _ _ => simp
    have hk7 : done.length ≤ 7 := by simp at hlen; omega
    have hsh : 2 ^ (done.length - 1) <<< 1 = 2 ^ done.length := by
      rw [Nat.shiftLeft_eq, ← pow_succ]; congr 1; omega
    have hne256 : ¬ (2 ^ (done.length - 1) <<< 1 = 256) := by
      rw [hsh]
      have : 2 ^ done.length ≤ 2 ^ 7 := Nat.pow_le_pow_right (by omega) hk7
      omega
    rw [List.cons_append, Enc, toksBytes, if_neg hne256, hsh, List.append_assoc]
    refine ⟨toksBytes ts ++ lb, rfl, ?_, ?_⟩
    · rw [and_two_pow_ne_zero, hcm, mapByte_testBit]
    · have := ih (done ++ [t]) (by simp) (by simpa using hlen) (by simpa using hcm)
        (by simpa using h)
      simpa using this

theorem Enc_group (cm : Nat) (t : Tok) (ts later : List Tok) (lb : List Byte)
    (hlen : (t :: ts).length ≤ 8)
    (h : ((t :: ts).length = 8 ∧ Enc later 128 (mapByte (t :: ts)) lb) ∨
      (later = [] ∧ lb = [])) :
    Enc ((t :: ts) ++ later) 128 cm (serG (t :: ts) ++ lb) := by
  have hlt := mapByte_lt (t :: ts)
  have hle : 2 ^ (t :: ts).length ≤ 2 ^ 8 := Nat.pow_le_pow_right (by omega) hlen
  have hval : (toByte (mapByte (t :: ts))).val = mapByte (t :: ts) := by
    simp only [toByte]; omega
  rw [List.cons_append, Enc, serG, toksBytes, if_pos (by decide), List.cons_append,
    List.append_assoc]
  refine ⟨toByte (mapByte (t :: ts)), toksBytes ts ++ lb, rfl, ?_, ?_⟩
  · have := and_two_pow_ne_zero (mapByte (t :: ts)) 0
    rw [hval]
    simp only [pow_zero] at this
    rw [this]
    rw [show (mapByte (t :: ts)).testBit 0 = t.isMat from mapByte_testBit [] t ts]
  · rw [hval]
    have := Enc_mid (mapByte (t :: ts)) later lb ts [t] (by simp) (by simpa using hlen)
      (by simp) (by simpa using h)
    simpa using this

theorem Enc_serGs : ∀ (gs : List (List Tok)), (∀ x, x ∈ gs → x.length = 8) →
    ∀ (g : List Tok), g.length < 8 → ∀ cm,
      Enc (joinG gs ++ g) 128 cm (serGs gs ++ serCur g) := by
  intro gs
  induction gs with
  | nil =>
    intro _ g hg cm
    cases g with
    | nil => simp [joinG, serGs, serCur, Enc]
    | cons t ts =>
      have := Enc_group cm t ts [] [] (by simp at hg ⊢; omega) (Or.inr ⟨rfl, rfl⟩)
      simpa [joinG, serGs, serCur] using this
  | cons x xs ih =>
    intro hall g hg cm
    have hx : x.length = 8 := hall x (by simp)
    have hxs := ih (fun y hy => hall y (by simp [hy])) g hg (mapByte x)
    cases x with
    | nil => simp at hx
    | cons t ts =>
      have := Enc_group cm t ts (joinG xs ++ g) (serGs xs ++ serCur g) (by omega)
        (Or.inl ⟨hx, hxs⟩)
      simpa [joinG, serGs, List.append_assoc] using this

theorem MATCH_MAX_eq : MATCH_MAX = 66 := rfl

theorem rd_eq_iff (src : List Byte) (i j : Nat) :
    rd src i = rd src j ↔ src.getD i 0 = src.getD j 0 := by
  simp only [rd]; exact Fin.val_inj

theorem extend_spec (src : List Byte) (p c : Nat) : ∀ (fuel m0 : Nat),
    m0 ≤ extend src p c fuel m0 ∧ extend src p c fuel m0 ≤ max m0 66 ∧
    ∀ i, m0 ≤ i → i < extend src p c fuel m0 → src.getD (p + i) 0 = src.getD (c + i) 0 := by
  intro fuel
  induction fuel with
  | zero => intro m0; simp only [extend]; refine ⟨le_refl _, by omega, ?_⟩; intro i h1 h2; omega
  | succ f ih =>
    intro m0
    rw [extend, MATCH_MAX_eq]
    split_ifs with h1 h2
    · refine ⟨le_refl _, by omega, ?_⟩; intro i h1 h2; omega
    · obtain ⟨ha, hb, hc⟩ := ih (m0 + 1)
      refine ⟨by omega, by omega, ?_⟩
      intro i hi1 hi2
      by_cases hi : i = m0
      · subst hi
        rw [← rd_eq_iff]
        exact not_not.mp h2
      · exact hc i (by omega) hi2
    · refine ⟨le_refl _, by omega, ?_⟩; intro i h1 h2; omega

theorem offsetOf_le (a p slot : Nat) : offsetOf a p slot ≤ 1023 := by
  unfold offsetOf
  rw [show (OFFSET_MASK + 1 : Nat) = 1024 from rfl]
  omega

theorem cAccept_spec {src : List Byte} {p o : Nat} (h : cAccept src p o = true) :
    o ≤ p ∧ 1 ≤ o ∧ ∀ i, i < 3 → src.getD (p + i) 0 = src.getD (p - o + i) 0 := by
  simp only [cAccept, Bool.and_eq_true, decide_eq_true_eq, rd_eq_iff] at h
  obtain ⟨⟨⟨h1, h2, h3⟩, h4⟩, h5⟩ := h
  refine ⟨h1, by omega, ?_⟩
  intro i hi
  interval_cases i
  · simpa using h2
  · exact h3
  · exact h4

/-- The match token that the encoder emits stands for the source at the
cursor. -/
theorem match_ok (X : List Byte) (p o : Nat) (hacc : cAccept X p o = true)
    (ho : o ≤ 1023) (hp : p + 66 ≤ X.length) :
    (Tok.mat (extend X p (p - o) (MATCH_MAX - MATCH_MIN) MATCH_MIN) o).ok X p := by
  obtain ⟨h1, h2, h3⟩ := cAccept_spec hacc
  obtain ⟨ha, hb, hc⟩ := extend_spec X p (p - o) (MATCH_MAX - MATCH_MIN) MATCH_MIN
  rw [show MATCH_MIN = 3 from rfl] at ha hb hc ⊢
  simp only [Tok.ok]
  refine ⟨ha, by omega, h2, ho, h1, by omega, ?_⟩
  intro i hi
  by_cases h : i < 3
  · exact h3 i h
  · exact hc i (by omega) hi

theorem serCur_ne (g : List Tok) (h : g ≠ []) : serCur g = serG g := by
  cases g with
  | nil => exact absurd rfl h
  | cons t ts => rfl

theorem EInv_push (X : List Byte) (gs : List (List Tok)) (g : List Tok) (t : Tok)
    (hall : ∀ x, x ∈ gs → x.length = 8) (hg : g.length < 8)
    (hok : toksOk X 0 (joinG gs ++ g)) (ht : t.ok X (spanSum (joinG gs ++ g)))
    (st' : CState) (hout : st'.out = serGs gs ++ serG (g ++ [t]))
    (hmask : st'.copymask = 2 ^ g.length) (hcm : st'.copymap = (serGs gs).length)
    (hsp : st'.spos = spanSum (joinG gs ++ g) + t.span) : EInv X st' := by
  have hok' : toksOk X 0 ((joinG gs ++ g) ++ [t]) := by
    rw [toksOk_append]
    exact ⟨hok, by simpa [toksOk] using ht⟩
  have hsp' : st'.spos = spanSum ((joinG gs ++ g) ++ [t]) := by
    rw [spanSum_append, hsp]; simp [spanSum]
  by_cases h8 : (g ++ [t]).length = 8
  · refine ⟨gs ++ [g ++ [t]], [], ?_, by simp, ?_, ?_, ?_, ?_, ?_⟩
    · intro x hx
      rcases List.mem_append.mp hx with h | h
      · exact hall x h
      · simp at h; subst h; exact h8
    · rw [serGs_append, hout]; simp [serCur]
    · rw [hmask]; simp at h8 ⊢; rw [h8]; rfl
    · intro h; exact absurd rfl h
    · rw [joinG_append]; simpa using hok'
    · rw [joinG_append]; simpa using hsp'
  · refine ⟨gs, g ++ [t], hall, ?_, ?_, ?_, ?_, ?_, ?_⟩
    · simp at h8 ⊢; omega
    · rw [hout, serCur_ne _ (by simp)]
    · rw [hmask]; congr 1; simp; omega
    · intro _; exact hcm
    · simpa using hok'
    · simpa using hsp'

theorem lit_emit (gs : List (List Tok)) (g : List Tok) (b : Byte) :
    (serGs gs ++ serG g) ++ [b] = serGs gs ++ serG (g ++ [Tok.lit b]) := by
  simp [serG, mapByte_snoc, toksBytes_append, toksBytes, Tok.bytes, Tok.isMat]

theorem mat_emit (gs : List (List Tok)) (g : List Tok) (m o : Nat) (hg : g.length < 8) :
    ((serGs gs ++ serG g).set (serGs gs).length
        (toByte (((serGs gs ++ serG g).getD (serGs gs).length 0).val ||| 2 ^ g.length))) ++
      [tokByte0 m o, tokByte1 o] = serGs gs ++ serG (g ++ [Tok.mat m o]) := by
  have hlt := mapByte_lt g
  have hle : 2 ^ g.length ≤ 2 ^ 7 := Nat.pow_le_pow_right (by omega) (by omega)
  have hor : mapByte g ||| 2 ^ g.length = mapByte g + 2 ^ g.length := by
    have := Nat.mul_add_lt_is_or hlt 1
    rw [Nat.mul_one] at this
    rw [Nat.lor_comm, ← this, Nat.add_comm]
  have hval : (toByte (mapByte g)).val = mapByte g := by
    simp only [toByte]; omega
  rw [List.set_append_right _ _ (le_refl _), List.getD_append_right _ _ _ _ (le_refl _)]
  simp only [Nat.sub_self, serG, List.getD_cons_zero, List.set_cons_zero, hval, hor,
    mapByte_snoc, Tok.isMat, if_true, toksBytes_append, toksBytes, Tok.bytes]
  simp

theorem mask_shift (k : Nat) (hk : k < 8) :
    (2 ^ ((k + 7) % 8)) <<< 1 = (if k = 0 then 256 else 2 ^ k) := by
  interval_cases k <;> rfl

theorem cMapStep_EInv (d_len : Nat) (st : CState) (gs : List (List Tok)) (g : List Tok)
    (hg : g.length < 8) (hout : st.out = serGs gs ++ serCur g)
    (hmask : st.copymask = 2 ^ ((g.length + 7) % 8))
    (hcm : g ≠ [] → st.copymap = (serGs gs).length) :
    (cMapStep d_len st = none ∧ g = [] ∧ d_len ≤ st.out.length + 17) ∨
    ∃ ms, cMapStep d_len st = some ms ∧ ms.1 = 2 ^ g.length ∧
      ms.2.1 = (serGs gs).length ∧ ms.2.2 = serGs gs ++ serG g := by
  have hsh := mask_shift g.length hg
  have h256 : (1 <<< NBBY) = 256 := rfl
  have h8 : (NBBY : Int) = 8 := rfl
  cases g with
  | nil =>
    rw [List.length_nil, if_pos rfl] at hsh
    rw [List.length_nil] at hmask
    simp only [serCur, List.append_nil] at hout
    by_cases h : ((st.out.length : Int) ≥ (d_len : Int) - 1 - 2 * 8)
    · left
      refine ⟨?_, rfl, by omega⟩
      unfold cMapStep
      rw [hmask, hsh, h256, h8, if_pos rfl, if_pos h]
    · right
      refine ⟨(1, st.out.length, st.out ++ [0]), ?_, rfl, by simp [hout], ?_⟩
      · unfold cMapStep
        rw [hmask, hsh, h256, h8, if_pos rfl, if_neg h]
      · simp [hout, serG, mapByte, toksBytes, toByte]
  | cons t ts =>
    have h2 : (2 : Nat) ^ (t :: ts).length ≤ 2 ^ 7 :=
      Nat.pow_le_pow_right (by omega) (by simp at hg ⊢; omega)
    rw [if_neg (by simp)] at hsh
    right
    refine ⟨(st.copymask <<< 1, st.copymap, st.out), ?_, ?_, hcm (by simp), ?_⟩
    · unfold cMapStep
      rw [hmask, hsh, h256, if_neg (by omega)]
    · show st.copymask <<< 1 = _
      rw [hmask, hsh]
    · show st.out = _
      rw [hout, serCur_ne _ (by simp)]

theorem cBody_EInv (a : Nat) (X : List Byte) (d_len : Nat) (st st' : CState)
    (hI : EInv X st) (hlt : st.spos < X.length)
    (hb : cBody a X d_len st = .next st') : EInv X st' ∧ st.spos < st'.spos := by
  obtain ⟨gs, g, hall, hg, hout, hmask, hcm, hok, hsp⟩ := hI
  have hlitok : (Tok.lit (X.getD st.spos 0)).ok X (spanSum (joinG gs ++ g)) := by
    rw [← hsp]; exact ⟨hlt, rfl⟩
  rcases cMapStep_EInv d_len st gs g hg hout hmask hcm with ⟨hnone, _, _⟩ | ⟨ms, hsome, h1, h2, h3⟩
  · unfold cBody at hb
    rw [hnone] at hb
    cases hb
  · unfold cBody at hb
    rw [hsome] at hb
    simp only [h1, h2, h3] at hb
    have h66 : (MATCH_MAX : Int) = 66 := rfl
    split_ifs at hb with hshort hacc
    · cases hb
      refine ⟨EInv_push X gs g _ hall hg hok hlitok _ (lit_emit gs g _) rfl rfl ?_, by simp⟩
      simp [hsp, Tok.span]
    · cases hb
      have hmok := match_ok X st.spos _ hacc (offsetOf_le _ _ _) (by omega)
      refine ⟨EInv_push X gs g _ hall hg hok (by rw [← hsp]; exact hmok) _
        (mat_emit gs g _ _ hg) rfl rfl ?_, ?_⟩
      · simp [hsp, Tok.span]
      · exact Nat.lt_add_of_pos_right (by have := hmok.1; omega)
    · cases hb
      refine ⟨EInv_push X gs g _ hall hg hok hlitok _ (lit_emit gs g _) rfl rfl ?_, by simp⟩
      simp [hsp, Tok.span]

theorem toksBytes_le (X : List Byte) (l : List Tok) : ∀ p, toksOk X p l →
    (toksBytes l).length ≤ spanSum l ∧ l.length ≤ spanSum l := by
  induction l with
  | nil => intro p _; simp [toksBytes, spanSum]
  | cons t ts ih =>
    intro p h
    rw [toksOk] at h
    have := ih _ h.2
    have hs := Tok.ok_span_pos h.1
    rw [toksBytes, spanSum, List.length_append, List.length_cons]
    cases t with
    | lit b => simp only [Tok.bytes, Tok.span, List.length_singleton] at hs ⊢; omega
    | mat m o =>
      have h3 : 3 ≤ m := h.1.1
      simp only [Tok.bytes, Tok.span, List.length_cons, List.length_nil] at hs ⊢; omega

theorem serGs_length (gs : List (List Tok)) (hall : ∀ x, x ∈ gs → x.length = 8) :
    (serGs gs).length = gs.length + (toksBytes (joinG gs)).length ∧
    (joinG gs).length = 8 * gs.length := by
  induction gs with
  | nil => simp [serGs, joinG, toksBytes]
  | cons x xs ih =>
    have := ih (fun y hy => hall y (by simp [hy]))
    have hx := hall x (by simp)
    rw [serGs, joinG, toksBytes_append]
    simp only [List.length_append, serG, List.length_cons]
    omega

theorem serCur_length (g : List Tok) :
    (serCur g).length = (if g.length = 0 then 0 else 1) + (toksBytes g).length := by
  cases g with
  | nil => simp [serCur, toksBytes]
  | cons t ts => simp [serCur, serG]; omega

/-- Sizes under the invariant of the encoder. -/
theorem EInv_sizes (X : List Byte) (gs : List (List Tok)) (g : List Tok)
    (hall : ∀ x, x ∈ gs → x.length = 8) (hok : toksOk X 0 (joinG gs ++ g)) :
    (serGs gs ++ serCur g).length ≤
      gs.length + (if g.length = 0 then 0 else 1) + spanSum (joinG gs ++ g) ∧
    8 * gs.length + g.length ≤ spanSum (joinG gs ++ g) ∧
    spanSum (joinG gs ++ g) ≤ X.length := by
  have h1 := toksBytes_le X _ 0 hok
  have h2 := serGs_length gs hall
  have h3 := serCur_length g
  have h4 := toksOk_le X _ 0 (Nat.zero_le _) hok
  rw [toksBytes_append] at h1
  simp only [List.length_append] at h1 ⊢
  omega

theorem EInv_cInit (X : List Byte) : EInv X cInit :=
  ⟨[], [], by simp, by simp, rfl, rfl, fun h => absurd rfl h, by simp [joinG, toksOk],
    by simp [joinG, spanSum, cInit]⟩

/-- Invariant rule for the loop of the encoder. -/
theorem cLoop_inv (a : Nat) (X : List Byte) (d_len : Nat) (P : CState → Prop)
    (Q : CResult → Prop)
    (hnext : ∀ st st', P st → st.spos < X.length → cBody a X d_len st = .next st' → P st')
    (hdone : ∀ st r, P st → st.spos < X.length → cBody a X d_len st = .done r → Q r)
    (hexit : ∀ st, P st → ¬ st.spos < X.length → Q ⟨st.out.length, st.out, false⟩) :
    ∀ (fuel : Nat) (st : CState) (r : CResult), P st →
      cLoop a X d_len fuel st = some r → Q r := by
  intro fuel
  induction fuel with
  | zero => intro st r _ h; simp [cLoop] at h
  | succ f ih =>
    intro st r hP h
    rw [cLoop] at h
    split_ifs at h with hlt
    · cases hb : cBody a X d_len st with
      | done r' =>
        rw [hb] at h
        cases h
        exact hdone st _ hP hlt hb
      | next st' =>
        rw [hb] at h
        exact ih st' r (hnext st st' hP hlt hb) h
    · cases h
      exact hexit st hP hlt

theorem cLoop_total (a : Nat) (X : List Byte) (d_len : Nat) :
    ∀ (fuel : Nat) (st : CState), EInv X st → X.length < st.spos + fuel → 0 < fuel →
      ∃ r, cLoop a X d_len fuel st = some r := by
  intro fuel
  induction fuel with
  | zero => intro st _ _ h; omega
  | succ f ih =>
    intro st hI h _
    rw [cLoop]
    split_ifs with hlt
    · cases hb : cBody a X d_len st with
      | done r => exact ⟨r, rfl⟩
      | next st' =>
        have := cBody_EInv a X d_len st st' hI hlt hb
        exact ih st' this.1 (by omega) (by omega)
    · exact ⟨_, rfl⟩

theorem lzjb_compress_total (a : Nat) (X : List Byte) (d_len : Nat) :
    ∃ r, lzjb_compress a X d_len = some r :=
  cLoop_total a X d_len _ cInit (EInv_cInit X) (by simp [cInit]) (by omega)

theorem cBody_done (a : Nat) (X : List Byte) (d_len : Nat) (st : CState) (r : CResult)
    (h : cBody a X d_len st = .done r) :
    cMapStep d_len st = none ∧ r = ⟨X.length, st.out, true⟩ := by
  unfold cBody at h
  cases hm : cMapStep d_len st with
  | none => rw [hm] at h; cases h; exact ⟨rfl, rfl⟩
  | some ms =>
    rw [hm] at h
    simp only at h
    split_ifs at h

/-- What the encoder returns: either it aborted at the headroom check, with
little room left, or its output encodes tokens that stand for the source. -/
theorem cLoop_post (a : Nat) (X : List Byte) (d_len : Nat) :
    ∀ (fuel : Nat) (st : CState) (r : CResult), EInv X st →
      cLoop a X d_len fuel st = some r →
      (r.aborted = true ∧ r.ret = X.length ∧
        ∃ p G, p < X.length ∧ 8 * G ≤ p ∧ r.out.length ≤ G + p ∧ d_len ≤ r.out.length + 17) ∨
      (r.aborted = false ∧ r.ret = r.out.length ∧
        r.out.length ≤ X.length + (X.length + 7) / 8 ∧
        ∃ (gs : List (List Tok)) (g : List Tok), (∀ x, x ∈ gs → x.length = 8) ∧
          g.length < 8 ∧ r.out = serGs gs ++ serCur g ∧ toksOk X 0 (joinG gs ++ g) ∧
          spanSum (joinG gs ++ g) = X.length) := by
  apply cLoop_inv a X d_len (EInv X)
  · intro st st' hI hlt hb
    exact (cBody_EInv a X d_len st st' hI hlt hb).1
  · intro st r hI hlt hb
    obtain ⟨hnone, hr⟩ := cBody_done a X d_len st r hb
    obtain ⟨gs, g, hall, hg, hout, hmask, hcm, hok, hsp⟩ := hI
    rcases cMapStep_EInv d_len st gs g hg hout hmask hcm with ⟨_, hg0, hd⟩ | ⟨ms, hsome, _⟩
    · subst hr
      left
      refine ⟨rfl, rfl, st.spos, gs.length, hlt, ?_, ?_, hd⟩
      · have := EInv_sizes X gs g hall hok
        rw [hsp]; omega
      · have := EInv_sizes X gs g hall hok
        subst hg0
        rw [hout, hsp]
        simpa using this.1
    · rw [hnone] at hsome; cases hsome
  · intro st hI hlt
    obtain ⟨gs, g, hall, hg, hout, hmask, hcm, hok, hsp⟩ := hI
    have hs := EInv_sizes X gs g hall hok
    right
    refine ⟨rfl, rfl, ?_, gs, g, hall, hg, hout, hok, by omega⟩
    show st.out.length ≤ _
    rw [hout]
    have h1 := hs.1
    split_ifs at h1 <;> omega

theorem dLoop_det (src : Nat → Byte) (s_len cap : Nat) (f1 f2 : Nat) (st : DState)
    (r1 r2 : DResult) (h1 : dLoop src s_len cap f1 st = some r1)
    (h2 : dLoop src s_len cap f2 st = some r2) : r1 = r2 := by
  have a := dLoop_mono src s_len cap f1 st r1 h1 f2
  have b := dLoop_mono src s_len cap f2 st r2 h2 f1
  rw [Nat.add_comm] at b
  rw [a] at b
  exact Option.some.inj b

theorem bytesOf_eq (m : Nat → Byte) (X : List Byte)
    (h : ∀ i, i < X.length → m i = X.getD i 0) : bytesOf m X.length = X := by
  apply List.ext_getElem
  · simp [bytesOf]
  · intro i h1 h2
    simp only [bytesOf, List.getElem_map, List.getElem_range]
    rw [h i h2, List.getD_eq_getElem _ _ h2]

/-- The frame of the loop of the decoder: the cursor stays within the
capacity and the memory from the capacity on is not changed. -/
theorem dLoop_frame (src : Nat → Byte) (s_len cap : Nat) (dst0 : Nat → Byte) :
    ∀ (fuel : Nat) (st : DState) (r : DResult),
      (st.dpos ≤ cap ∧ ∀ i, cap ≤ i → st.dst i = dst0 i) →
      dLoop src s_len cap fuel st = some r →
      (r.dpos ≤ cap ∧ (∀ i, cap ≤ i → r.dst i = dst0 i) ∧
        (r.status = LZJB_OK → r.d_len = r.dpos) ∧ (r.status ≠ LZJB_OK → r.d_len = cap)) := by
  apply dLoop_inv src s_len cap
  · intro st st' hP _ hb
    obtain ⟨h1, h2⟩ := hP
    unfold dBody at hb
    simp only at hb
    split_ifs at hb <;> cases hb
    · refine ⟨by dsimp only; omega, ?_⟩
      intro i hi
      dsimp only
      rw [copyLoop_frame _ _ _ _ _ (by omega)]
      exact h2 i hi
    · refine ⟨by dsimp only; omega, ?_⟩
      intro i hi
      dsimp only
      rw [wr_other _ _ _ _ (by omega)]
      exact h2 i hi
  · intro st r hP _ hb
    obtain ⟨h1, h2⟩ := hP
    unfold dBody at hb
    simp only at hb
    split_ifs at hb <;> cases hb <;> exact ⟨h1, h2, by simp, by simp⟩
  · intro st hP _
    exact ⟨hP.1, hP.2, by simp, by simp⟩

/-- The decoder on the output of an encoder that did not abort. -/
theorem decompress_compress (a : Nat) (X : List Byte) (d_len cap : Nat) (dst : Nat → Byte)
    (r : CResult) (hr : lzjb_compress a X d_len = some r) (hab : r.aborted = false) :
    ∃ d, lzjb_decompress (memOf r.out) r.ret dst cap = some d ∧ DecodesTo X cap d := by
  rcases cLoop_post a X d_len _ cInit r (EInv_cInit X) hr with
    ⟨h, _⟩ | ⟨_, hret, _, gs, g, hall, hg, hout, hok, hsp⟩
  · rw [hab] at h; cases h
  · have hE : Enc (joinG gs ++ g) 128 0 r.out := by rw [hout]; exact Enc_serGs gs hall g hg 0
    obtain ⟨fuel, d, hd, hD⟩ := dLoop_Enc (memOf r.out) r.ret cap X _ (dInit dst) r.out hE
      (by intro i _; simp [dInit, memOf]) (by simp [dInit, hret]) hok
      (by simp [dInit, hsp]) (by intro i hi; simp [dInit] at hi) (by simp [dInit]) rfl
    obtain ⟨d', hd'⟩ := lzjb_decompress_total (memOf r.out) r.ret dst cap
    have := dLoop_det _ _ _ _ _ _ _ _ hd hd'
    subst this
    exact ⟨d, hd', hD⟩

theorem max_size_no_abort (n d_len w p G : Nat) (hd : LZJB_MAX_COMPRESSED_SIZE n ≤ d_len)
    (hp : p < n) (hG : 8 * G ≤ p) (hw : w ≤ G + p) : ¬ d_len ≤ w + 17 := by
  unfold LZJB_MAX_COMPRESSED_SIZE at hd
  split_ifs at hd <;> omega

theorem dStep_some {src : Nat → Byte} {s_len cap : Nat} {st st' : DState} :
    dStep src s_len cap st = some st' ↔
      st.spos < s_len ∧ dBody src s_len cap st = .next st' := by
  unfold dStep
  split_ifs with h
  · cases hb : dBody src s_len cap st with
    | done r => simp [h]
    | next s => simp [h]
  · simp [h]

theorem dIter_succ {src : Nat → Byte} {s_len cap k : Nat} {st0 st : DState} :
    dIter src s_len cap (k + 1) st0 = some st ↔
      ∃ mid, dIter src s_len cap k st0 = some mid ∧ dStep src s_len cap mid = some st := by
  rw [dIter, Option.bind_eq_some]

theorem dIter_loop (src : Nat → Byte) (s_len cap : Nat) : ∀ (k : Nat) (st0 st : DState),
    dIter src s_len cap k st0 = some st →
    ∀ f, dLoop src s_len cap (k + f) st0 = dLoop src s_len cap f st := by
  intro k
  induction k with
  | zero =>
    intro st0 st h f
    simp only [dIter, Option.some.injEq] at h
    subst h
    rw [Nat.zero_add]
  | succ k ih =>
    intro st0 st h f
    obtain ⟨mid, h1, h2⟩ := dIter_succ.mp h
    obtain ⟨hlt, hb⟩ := dStep_some.mp h2
    rw [show k + 1 + f = k + (f + 1) by omega, ih st0 mid h1 (f + 1), dLoop, if_pos hlt, hb]

theorem dIter_spos (src : Nat → Byte) (s_len cap : Nat) : ∀ (k : Nat) (st0 st : DState),
    dIter src s_len cap k st0 = some st → st0.spos + k ≤ st.spos := by
  intro k
  induction k with
  | zero =>
    intro st0 st h
    simp only [dIter, Option.some.injEq] at h
    subst h
    omega
  | succ k ih =>
    intro st0 st h
    obtain ⟨mid, h1, h2⟩ := dIter_succ.mp h
    obtain ⟨_, hb⟩ := dStep_some.mp h2
    have := ih st0 mid h1
    have := dBody_next_spos hb
    omega

/-- The result of a call whose loop reaches the state `st` is the result of
the loop started in `st`. -/
theorem lzjb_decompress_of_reach (src : Nat → Byte) (s_len cap : Nat) (dst : Nat → Byte)
    (k : Nat) (st : DState) (h : dIter src s_len cap k (dInit dst) = some st)
    (r : DResult) (f : Nat) (hr : dLoop src s_len cap f st = some r) :
    lzjb_decompress src s_len dst cap = some r := by
  obtain ⟨r', hr'⟩ := lzjb_decompress_total src s_len dst cap
  have h1 := dIter_loop src s_len cap k _ st h f
  rw [hr] at h1
  have := dLoop_det src s_len cap _ _ _ _ _ h1 hr'
  rw [hr', this]

theorem copyLoop_overlap (k : Nat) : ∀ (d c : Nat) (m : Mem), c < d →
    ∀ i, i < k → copyLoop k d c m (d + i) = copyLoop k d c m (c + i) := by
  induction k with
  | zero => intro d c m _ i hi; omega
  | succ k ih =>
    intro d c m hcd i hi
    rw [copyLoop]
    cases i with
    | zero =>
      show copyLoop k (d + 1) (c + 1) (wr m d (m c)) d =
        copyLoop k (d + 1) (c + 1) (wr m d (m c)) c
      rw [copyLoop_frame _ _ _ _ _ (Or.inl (by omega)),
        copyLoop_frame _ _ _ _ _ (Or.inl (by omega)), wr_same, wr_other _ _ _ _ (by omega)]
    | succ j =>
      have := ih (d + 1) (c + 1) (wr m d (m c)) (by omega) j (by omega)
      rw [show d + (j + 1) = d + 1 + j by omega, show c + (j + 1) = c + 1 + j by omega]
      exact this

theorem mapByte_testBit_get (g : List Tok) : ∀ (i : Nat) (h : i < g.length),
    (mapByte g).testBit i = (g.get ⟨i, h⟩).isMat := by
  induction g with
  | nil => intro i h; simp at h
  | cons t ts ih =>
    intro i h
    cases i with
    | zero => exact mapByte_testBit [] t ts
    | succ j =>
      rw [mapByte, Nat.testBit_succ]
      rw [show ((if t.isMat = true then 1 else 0) + 2 * mapByte ts) / 2 = mapByte ts by
        split <;> omega]
      exact ih j (by simpa using h)

theorem getD_replicate (n : Nat) (b : Byte) (i : Nat) (h : i < n) :
    (List.replicate n b).getD i 0 = b := by
  rw [List.getD_eq_getElem _ _ (by simpa using h), List.getElem_replicate]

theorem dBody_next_mask {src : Nat → Byte} {s_len cap : Nat} {st st' : DState}
    (h : dBody src s_len cap st = .next st') :
    st'.copymask = (dMapStep src st).1 ∧ st'.copymap = (dMapStep src st).2.1 := by
  unfold dBody at h
  simp only at h
  split_ifs at h <;> cases h <;> exact ⟨rfl, rfl⟩

theorem dMapStep_wrap (src : Nat → Byte) (st : DState) (h : st.copymask = 128) :
    dMapStep src st = (1, (src st.spos).val, st.spos + 1) := by
  unfold dMapStep
  rw [h, if_pos (by decide)]

theorem dMapStep_shift (src : Nat → Byte) (st : DState) (j : Nat) (hj : j < 7)
    (h : st.copymask = 2 ^ j) : dMapStep src st = (2 ^ (j + 1), st.copymap, st.spos) := by
  unfold dMapStep
  have h1 : (2 : Nat) ^ j <<< 1 = 2 ^ (j + 1) := by
    rw [Nat.shiftLeft_eq, ← pow_add]
  have h2 : (2 : Nat) ^ (j + 1) ≤ 2 ^ 7 := Nat.pow_le_pow_right (by omega) (by omega)
  rw [h, h1, show (1 <<< NBBY) = 256 from rfl, if_neg (by omega)]

/-- After `k` tokens the mask of the decoder is `2 ^ ((k + 7) % 8)`: it is
`1 << 7` exactly at the start of a group of eight tokens. -/
theorem dIter_mask (src : Nat → Byte) (s_len cap : Nat) (dst : Nat → Byte) :
    ∀ (k : Nat) (st : DState), dIter src s_len cap k (dInit dst) = some st →
      st.copymask = 2 ^ ((k + 7) % 8) := by
  intro k
  induction k with
  | zero =>
    intro st h
    simp only [dIter, Option.some.injEq] at h
    subst h
    rfl
  | succ k ih =>
    intro st h
    obtain ⟨mid, h1, h2⟩ := dIter_succ.mp h
    obtain ⟨_, hb⟩ := dStep_some.mp h2
    have hm := ih mid h1
    rw [(dBody_next_mask hb).1]
    by_cases h7 : (k + 7) % 8 = 7
    · rw [h7] at hm
      rw [dMapStep_wrap src mid hm, show (k + 1 + 7) % 8 = 0 by omega]
      rfl
    · rw [dMapStep_shift src mid _ (by omega) hm, show (k + 1 + 7) % 8 = (k + 7) % 8 + 1 by omega]

/-- In a group that starts in the state `st0` the token of index `i` is
decoded with the mask `2 ^ i` and the copy-map byte read at the cursor of
`st0`. -/
theorem dIter_group (src : Nat → Byte) (s_len cap : Nat) (st0 : DState)
    (h0 : st0.copymask = 128) :
    ∀ (i : Nat) (st : DState), i < 8 → dIter src s_len cap i st0 = some st →
      (dMapStep src st).1 = 2 ^ i ∧ (dMapStep src st).2.1 = (src st0.spos).val := by
  intro i
  induction i with
  | zero =>
    intro st _ h
    simp only [dIter, Option.some.injEq] at h
    subst h
    rw [dMapStep_wrap src st0 h0]
    exact ⟨rfl, rfl⟩
  | succ i ih =>
    intro st hi h
    obtain ⟨mid, h1, h2⟩ := dIter_succ.mp h
    obtain ⟨_, hb⟩ := dStep_some.mp h2
    obtain ⟨ha, hc⟩ := ih mid (by omega) h1
    obtain ⟨hm1, hm2⟩ := dBody_next_mask hb
    rw [ha] at hm1
    rw [hc] at hm2
    rw [dMapStep_shift src st i (by omega) hm1]
    exact ⟨rfl, hm2⟩

/-- The output of the encoder is made of groups of tokens, whether it aborted
or not. -/
theorem cLoop_groups (a : Nat) (X : List Byte) (d_len : Nat) :
    ∀ (fuel : Nat) (st : CState) (r : CResult), EInv X st →
      cLoop a X d_len fuel st = some r →
      ∃ (gs : List (List Tok)) (g : List Tok), (∀ x, x ∈ gs → x.length = 8) ∧
        g.length < 8 ∧ r.out = serGs gs ++ serCur g ∧ toksOk X 0 (joinG gs ++ g) := by
  apply cLoop_inv a X d_len (EInv X)
  · intro st st' hI hlt hb
    exact (cBody_EInv a X d_len st st' hI hlt hb).1
  · intro st r hI _ hb
    obtain ⟨_, hr⟩ := cBody_done a X d_len st r hb
    obtain ⟨gs, g, hall, hg, hout, _, _, hok, _⟩ := hI
    subst hr
    exact ⟨gs, g, hall, hg, hout, hok⟩
  · intro st hI _
    obtain ⟨gs, g, hall, hg, hout, _, _, hok, _⟩ := hI
    exact ⟨gs, g, hall, hg, hout, hok⟩

/-! ## The stores of the decoder -/

theorem copyLoop_log (k : Nat) : ∀ (d c : Nat) (m : Mem),
    m.log.reverse = List.range d → (copyLoop k d c m).log.reverse = List.range (d + k) := by
  induction k with
  | zero => intro d c m h; exact h
  | succ k ih =>
    intro d c m h
    rw [copyLoop, show d + (k + 1) = d + 1 + k by omega]
    apply ih
    show (d :: m.log).reverse = List.range (d + 1)
    rw [List.reverse_cons, h, List.range_succ]

/-- The stores of a call of the decoder are made at the offsets `0`, `1`, ...
in this order, one for each position that the write cursor has passed. -/
theorem dLoop_log (src : Nat → Byte) (s_len cap : Nat) :
    ∀ (fuel : Nat) (st : DState) (r : DResult),
      st.dst.log.reverse = List.range st.dpos →
      dLoop src s_len cap fuel st = some r →
      r.dst.log.reverse = List.range r.dpos := by
  apply dLoop_inv src s_len cap
  · intro st st' hP _ hb
    unfold dBody at hb
    simp only at hb
    split_ifs at hb <;> cases hb
    · exact copyLoop_log _ _ _ _ hP
    · show (st.dpos :: st.dst.log).reverse = List.range (st.dpos + 1)
      rw [List.reverse_cons, hP, List.range_succ]
  · intro st r hP _ hb
    unfold dBody at hb
    simp only at hb
    split_ifs at hb <;> cases hb <;> exact hP
  · intro st hP _
    exact hP

/-! ## The claims -/

/-- Claim C1 (round trip). For every source `X`, placed at any address, and
every `d_len` at least `LZJB_MAX_COMPRESSED_SIZE` of its length, the call of
`lzjb_compress` returns some `k`, and for every capacity at least the length
of `X` (and any initial contents of the destination) `lzjb_decompress` on the
first `k` bytes written returns `LZJB_OK`, sets `*d_len` to the length of `X`
and leaves `X` in the destination. -/
theorem round_trip (a : Nat) (X : List Byte) (d_len cap : Nat) (dst : Nat → Byte)
    (hd : LZJB_MAX_COMPRESSED_SIZE X.length ≤ d_len) (hc : X.length ≤ cap) :
    ∃ r, lzjb_compress a X d_len = some r ∧
      ∃ d, lzjb_decompress (memOf r.out) r.ret dst cap = some d ∧
        d.status = LZJB_OK ∧ d.d_len = X.length ∧ bytesOf d.dst X.length = X := by
  obtain ⟨r, hr⟩ := lzjb_compress_total a X d_len
  have hab : r.aborted = false := by
    rcases cLoop_post a X d_len _ cInit r (EInv_cInit X) hr with
      ⟨_, _, p, G, hp, hG, hw, hd'⟩ | ⟨h, _⟩
    · exact absurd hd' (max_size_no_abort X.length d_len _ p G hd hp hG hw)
    · exact h
  obtain ⟨d, hd', _, hD⟩ := decompress_compress a X d_len cap dst r hr hab
  refine ⟨r, hr, d, hd', ?_⟩
  rcases hD with ⟨h1, h2, _, h4⟩ | ⟨_, h2, _⟩
  · exact ⟨h1, h2, bytesOf_eq _ _ h4⟩
  · omega

/-- The round trip of claim C1 on the 67 bytes of `exSrc`, placed at the address
4096, with `d_len = 92` and a destination of exactly 67 bytes. -/
theorem round_trip_witness :
    LZJB_MAX_COMPRESSED_SIZE exSrc.length ≤ 92 ∧ exSrc.length ≤ 67 ∧
    ∃ r, lzjb_compress 4096 exSrc 92 = some r ∧
      ∃ d, lzjb_decompress (memOf r.out) r.ret (fun _ => 0) 67 = some d ∧
        d.status = LZJB_OK ∧ d.d_len = exSrc.length ∧ bytesOf d.dst exSrc.length = exSrc :=
  ⟨by decide, by decide, round_trip 4096 exSrc 92 67 (fun _ => 0) (by decide) (by decide)⟩

/-- Claim C2 (bound safety). For every source `X` of length `n`,
`lzjb_compress` called with `d_len = LZJB_MAX_COMPRESSED_SIZE(n)` does not
return through the headroom check, and the number of bytes it writes, which
it returns, is at most `n + ceil(n / 8)`, hence at most `d_len`. -/
theorem bound_safety (a : Nat) (X : List Byte) :
    LZJB_MAX_COMPRESSED_SIZE X.length =
      X.length + X.length / 8 + (if X.length % 8 ≠ 0 then 1 else 0) + 16 ∧
    ∃ r, lzjb_compress a X (LZJB_MAX_COMPRESSED_SIZE X.length) = some r ∧
      r.aborted = false ∧ r.ret = r.out.length ∧
      r.ret ≤ X.length + (X.length + 7) / 8 ∧
      r.ret ≤ LZJB_MAX_COMPRESSED_SIZE X.length := by
  refine ⟨rfl, ?_⟩
  obtain ⟨r, hr⟩ := lzjb_compress_total a X (LZJB_MAX_COMPRESSED_SIZE X.length)
  refine ⟨r, hr, ?_⟩
  rcases cLoop_post a X _ _ cInit r (EInv_cInit X) hr with
    ⟨_, _, p, G, hp, hG, hw, hd'⟩ | ⟨h1, h2, h3, _⟩
  · exact absurd hd' (max_size_no_abort X.length _ _ p G (le_refl _) hp hG hw)
  · refine ⟨h1, h2, by omega, ?_⟩
    unfold LZJB_MAX_COMPRESSED_SIZE
    split_ifs <;> omega

/-- Claim C3 (overflow detection). For every source `X` of length at least 1
whose compression did not abort and every capacity less than the length of
`X`, `lzjb_decompress` on the compressed stream returns
`LZJB_WOULD_OVERFLOW` and leaves the destination memory from the capacity on
as it was. -/
theorem overflow_detection (a : Nat) (X : List Byte) (d_len cap : Nat) (dst : Nat → Byte)
    (r : CResult) (hn : 1 ≤ X.length) (hr : lzjb_compress a X d_len = some r)
    (hab : r.aborted = false) (hc : cap < X.length) :
    ∃ d, lzjb_decompress (memOf r.out) r.ret dst cap = some d ∧
      d.status = LZJB_WOULD_OVERFLOW ∧ d.status ≠ LZJB_OK ∧ d.status ≠ LZJB_BAD_DATA ∧
      ∀ i, cap ≤ i → d.dst i = dst i := by
  have _ := hn
  obtain ⟨d, hd, _, hD⟩ := decompress_compress a X d_len cap dst r hr hab
  have hf := dLoop_frame (memOf r.out) r.ret cap dst _ (dInit dst) d
    ⟨by simp [dInit], fun i _ => rfl⟩ hd
  refine ⟨d, hd, ?_⟩
  rcases hD with ⟨_, _, h3, _⟩ | ⟨h1, _, _⟩
  · omega
  · exact ⟨h1, by rw [h1]; decide, by rw [h1]; decide, hf.2.1⟩

/-- The overflow detection of claim C3 on the stream of `exSrc` and a
destination of 10 bytes. -/
theorem overflow_detection_witness :
    1 ≤ exSrc.length ∧ lzjb_compress 4096 exSrc 92 = some exOut ∧ exOut.aborted = false ∧
    10 < exSrc.length ∧
    ∃ d, lzjb_decompress (memOf exOut.out) exOut.ret (fun _ => 0) 10 = some d ∧
      d.status = LZJB_WOULD_OVERFLOW ∧ d.status ≠ LZJB_OK ∧ d.status ≠ LZJB_BAD_DATA ∧
      ∀ i, 10 ≤ i → d.dst i = (fun _ => 0) i :=
  ⟨by decide, by decide, rfl, by decide,
    overflow_detection 4096 exSrc 92 10 (fun _ => 0) exOut (by decide) (by decide) rfl
      (by decide)⟩

/-- Claim C4 (corruption detection), as the code has it. When the loop of
`lzjb_decompress` reaches a token that is a back-reference whose decoded
offset exceeds the number of bytes produced so far, the call returns
`LZJB_BAD_DATA` if the destination is not full yet (less than `cap` bytes
produced); if it is full, the capacity check at the head of the loop comes
first and the call returns `LZJB_WOULD_OVERFLOW`. -/
theorem corruption_detection (src : Nat → Byte) (s_len cap : Nat) (dst : Nat → Byte)
    (k : Nat) (st : DState) (hreach : dIter src s_len cap k (dInit dst) = some st)
    (hs : st.spos < s_len) (hm : dIsMatch src st) (ho : st.dpos < dOffset src st) :
    ∃ r, lzjb_decompress src s_len dst cap = some r ∧
      (st.dpos < cap → r.status = LZJB_BAD_DATA) ∧
      (cap ≤ st.dpos → r.status = LZJB_WOULD_OVERFLOW) := by
  unfold dIsMatch at hm
  unfold dOffset at ho
  by_cases hfull : st.dpos ≥ cap
  · refine ⟨_, lzjb_decompress_of_reach src s_len cap dst k st hreach
      ⟨LZJB_WOULD_OVERFLOW, cap, st.dst, st.dpos, st.spos, st.overread⟩ 1 ?_, ?_, ?_⟩
    · rw [dLoop, if_pos hs]
      simp only [dBody, if_pos hfull]
    · intro h; omega
    · intro _; rfl
  · refine ⟨_, lzjb_decompress_of_reach src s_len cap dst k st hreach
      ⟨LZJB_BAD_DATA, cap, st.dst, st.dpos, (dMapStep src st).2.2 + 2,
        st.overread || decide (s_len ≤ (dMapStep src st).2.2 + 1)⟩ 1 ?_, ?_, ?_⟩
    · rw [dLoop, if_pos hs]
      simp only [dBody, if_neg hfull, if_pos hm, if_pos (show _ > st.dpos from ho)]
    · intro _; rfl
    · intro h; omega

/-- The corruption detection of claim C4 on the stream `02 07 00 05`: after the
literal `07` the second token is a back-reference of offset 5 with one byte
produced. -/
theorem corruption_detection_witness :
    dIter (memOf [2, 7, 0, 5]) 4 9 1 (dInit (fun _ => 0)) =
      some ⟨2, 1, 2, 1, wr ⟨fun _ => 0, []⟩ 0 7, false⟩ ∧
    (2 : Nat) < 4 ∧
    dIsMatch (memOf [2, 7, 0, 5]) ⟨2, 1, 2, 1, wr ⟨fun _ => 0, []⟩ 0 7, false⟩ ∧
    (1 : Nat) < dOffset (memOf [2, 7, 0, 5]) ⟨2, 1, 2, 1, wr ⟨fun _ => 0, []⟩ 0 7, false⟩ ∧
    ∃ r, lzjb_decompress (memOf [2, 7, 0, 5]) 4 (fun _ => 0) 9 = some r ∧
      ((1 : Nat) < 9 → r.status = LZJB_BAD_DATA) ∧
      (9 ≤ (1 : Nat) → r.status = LZJB_WOULD_OVERFLOW) :=
  ⟨rfl, by decide, by decide, by decide,
    corruption_detection (memOf [2, 7, 0, 5]) 4 9 (fun _ => 0) 1
      ⟨2, 1, 2, 1, wr ⟨fun _ => 0, []⟩ 0 7, false⟩ rfl (by decide) (by decide) (by decide)⟩

/-- Claim C4 as stated fails when the destination is full. On the stream
`01 00 01` the first token is a back-reference of offset 1 while no byte has
been produced; with capacity 0 the call returns `LZJB_WOULD_OVERFLOW`, not
`LZJB_BAD_DATA`. -/
theorem corruption_detection_counterexample :
    dIter (memOf [1, 0, 1]) 3 0 0 (dInit (fun _ => 0)) = some (dInit (fun _ => 0)) ∧
    (dInit (fun _ => 0)).spos < 3 ∧
    dIsMatch (memOf [1, 0, 1]) (dInit (fun _ => 0)) ∧
    (dInit (fun _ => 0)).dpos < dOffset (memOf [1, 0, 1]) (dInit (fun _ => 0)) ∧
    Option.map DResult.status (lzjb_decompress (memOf [1, 0, 1]) 3 (fun _ => 0) 0) =
      some LZJB_WOULD_OVERFLOW :=
  ⟨rfl, by decide, by decide, by decide, by decide⟩

/-- Claim C5 (decoder capacity safety). For every source memory and length
(a valid stream or not), every destination memory and every capacity `cap`,
`lzjb_decompress` returns; the stores it has made into the destination are
at the offsets `0`, `1`, ..., up to the write cursor, in this order and one
each, all below `cap`; the destination memory from `cap` on is as it was;
and when the status is `LZJB_OK` the value stored in `*d_len` is the number
of stores made (the number of bytes written), which is the write cursor and
is at most `cap`. -/
theorem decoder_capacity_safety (src : Nat → Byte) (s_len : Nat) (dst : Nat → Byte)
    (cap : Nat) :
    ∃ r, lzjb_decompress src s_len dst cap = some r ∧
      r.dst.log.reverse = List.range r.dpos ∧
      (∀ i, i ∈ r.dst.log → i < cap) ∧
      (∀ i, cap ≤ i → r.dst i = dst i) ∧ r.dpos ≤ cap ∧
      (r.status = LZJB_OK →
        r.d_len = r.dst.log.length ∧ r.d_len = r.dpos ∧ r.d_len ≤ cap) := by
  obtain ⟨r, hr⟩ := lzjb_decompress_total src s_len dst cap
  have hf := dLoop_frame src s_len cap dst _ (dInit dst) r
    ⟨by simp [dInit], fun i _ => rfl⟩ hr
  have hl := dLoop_log src s_len cap _ (dInit dst) r rfl hr
  have hlen : r.dst.log.length = r.dpos := by
    have := congrArg List.length hl
    simpa using this
  refine ⟨r, hr, hl, ?_, hf.2.1, hf.1, ?_⟩
  · intro i hi
    have : i ∈ List.range r.dpos := by
      rw [← hl]; exact List.mem_reverse.mpr hi
    have := List.mem_range.mp this
    omega
  · intro h
    have := hf.2.2.1 h
    exact ⟨by omega, this, by omega⟩

/-- Claim C6 (decoder source bounds) fails on the code. On the one-byte stream
`00` (a copy-map byte and nothing after it) the call reads the byte at index
1 as a literal, stores it and returns `LZJB_OK` with one byte produced; on
the two-byte stream `01 00` (a copy-map byte announcing a match, and half of
the token) it reads the byte at index 2 as the second byte of the token. -/
theorem source_overread :
    Option.map (fun r => (r.status, r.d_len, r.spos, r.overread))
      (lzjb_decompress (memOf [0]) 1 (fun _ => 0) 1) = some (LZJB_OK, 1, 2, true) ∧
    Option.map (fun r => (r.status, r.d_len, r.spos, r.overread))
      (lzjb_decompress (memOf [1, 0]) 2 (fun _ => 0) 3) = some (LZJB_OK, 3, 3, true) :=
  ⟨by decide, by decide⟩

/-- Claim C8 (overlap correctness). For every byte `b`, every capacity at
least 67 and every initial destination, `lzjb_decompress` on the stream
`02 b FC 01` (a literal `b`, then a match of offset 1 and length 66) returns
`LZJB_OK` with 67 bytes produced, all equal to `b`. In general, an iteration
of the loop that decodes a back-reference of offset `o` and length `m` at
the output position `p` without returning leaves `out[p + i] = out[p + i - o]`
for every `i < m` (also when `o < m`), moves the cursor to `p + m` and does
not change the bytes before `p`. -/
theorem overlap_correctness :
    (∀ (b : Byte) (cap : Nat) (dst : Nat → Byte), 67 ≤ cap →
      tokMlen 0xFC = 66 ∧ tokOffset 0xFC 0x01 = 1 ∧
      ∃ r, lzjb_decompress (memOf [0x02, b, 0xFC, 0x01]) 4 dst cap = some r ∧
        r.status = LZJB_OK ∧ r.d_len = 67 ∧ bytesOf r.dst 67 = List.replicate 67 b) ∧
    (∀ (src : Nat → Byte) (s_len cap : Nat) (st st' : DState),
      dBody src s_len cap st = .next st' → dIsMatch src st →
        st'.dpos = st.dpos + dMlen src st ∧ dOffset src st ≤ st.dpos ∧
        (∀ i, i < dMlen src st →
          st'.dst (st.dpos + i) = st'.dst (st.dpos + i - dOffset src st)) ∧
        (∀ i, i < st.dpos → st'.dst i = st.dst i)) := by
  constructor
  · intro b cap dst hcap
    refine ⟨by decide, by decide, ?_⟩
    have hE : Enc [Tok.lit b, Tok.mat 66 1] (dInit dst).copymask (dInit dst).copymap
        [0x02, b, 0xFC, 0x01] := by
      show Enc [Tok.lit b, Tok.mat 66 1] 128 0 [0x02, b, 0xFC, 0x01]
      rw [Enc, if_pos (by decide)]
      refine ⟨0x02, [0xFC, 0x01], rfl,
        by rw [show (Tok.lit b).isMat = false from rfl]; decide, ?_⟩
      rw [Enc, if_neg (by decide)]
      refine ⟨[], rfl, by decide, ?_⟩
      rw [Enc]
    have hok : toksOk (List.replicate 67 b) (dInit dst).dpos [Tok.lit b, Tok.mat 66 1] := by
      show toksOk (List.replicate 67 b) 0 [Tok.lit b, Tok.mat 66 1]
      refine ⟨⟨by simp, getD_replicate 67 b 0 (by omega)⟩, ⟨?_, trivial⟩⟩
      refine ⟨by omega, by omega, by omega, by omega, by simp [Tok.span],
        by simp [Tok.span], ?_⟩
      intro i hi
      simp only [Tok.span] at *
      rw [getD_replicate 67 b _ (by omega), getD_replicate 67 b _ (by omega)]
    obtain ⟨fuel, r, hr, _, hD⟩ := dLoop_Enc (memOf [0x02, b, 0xFC, 0x01]) 4 cap
      (List.replicate 67 b) _ (dInit dst) _ hE (by intro i _; simp [dInit, memOf])
      (by simp [dInit]) hok (by simp [dInit, spanSum, Tok.span])
      (by intro i hi; simp [dInit] at hi) (by simp [dInit]) rfl
    refine ⟨r, lzjb_decompress_of_reach _ 4 cap dst 0 (dInit dst) rfl r fuel hr, ?_⟩
    rcases hD with ⟨h1, h2, _, h4⟩ | ⟨_, h2, _⟩
    · refine ⟨h1, by simpa using h2, ?_⟩
      have := bytesOf_eq r.dst (List.replicate 67 b) h4
      simpa using this
    · simp at h2; omega
  · intro src s_len cap st st' hb hm
    unfold dIsMatch at hm
    unfold dMlen dOffset
    unfold dBody at hb
    simp only at hb
    split_ifs at hb with h1 h2 h3
    cases hb
    dsimp only
    refine ⟨rfl, by omega, ?_, ?_⟩
    · intro i hi
      by_cases ho : tokOffset (src (dMapStep src st).2.2) (src ((dMapStep src st).2.2 + 1)) = 0
      · rw [ho]; rfl
      · have := copyLoop_overlap (tokMlen (src (dMapStep src st).2.2)) st.dpos
          (st.dpos - tokOffset (src (dMapStep src st).2.2) (src ((dMapStep src st).2.2 + 1)))
          st.dst (by omega) i hi
        rw [this]
        congr 1
        omega
    · intro i hi
      exact copyLoop_frame _ _ _ _ _ (Or.inl hi)

/-- The overlap correctness of claim C8 for the byte 7 and a destination of
exactly 67 bytes. -/
theorem overlap_correctness_witness :
    (67 : Nat) ≤ 67 ∧
    ∃ r, lzjb_decompress (memOf [0x02, 7, 0xFC, 0x01]) 4 (fun _ => 0) 67 = some r ∧
      r.status = LZJB_OK ∧ r.d_len = 67 ∧ bytesOf r.dst 67 = List.replicate 67 7 :=
  ⟨by decide, (overlap_correctness.1 7 67 (fun _ => 0) (by decide)).2.2⟩

/-- Claim C9 (token bit layout). For every `mlen` in `3..66` and every
`offset` in `0..1023` the value stored in the first byte of the token is
`4 * (mlen - 3) + offset / 256`, which is less than 256, the second byte is
`offset mod 256`, and the fields that the decoder extracts from the two
bytes are `mlen` and `offset`; and from every pair of bytes the decoder
extracts an `mlen` in `3..66` and an `offset` in `0..1023`. -/
theorem token_bit_layout :
    (∀ mlen offset : Nat, 3 ≤ mlen → mlen ≤ 66 → offset ≤ 1023 →
      ((mlen - MATCH_MIN) <<< (NBBY - MATCH_BITS)) ||| (offset >>> NBBY) =
        4 * (mlen - 3) + offset / 256 ∧
      4 * (mlen - 3) + offset / 256 < 256 ∧
      (tokByte0 mlen offset).val = 4 * (mlen - 3) + offset / 256 ∧
      (tokByte1 offset).val = offset % 256 ∧
      tokMlen (tokByte0 mlen offset) = mlen ∧
      tokOffset (tokByte0 mlen offset) (tokByte1 offset) = offset) ∧
    (∀ b0 b1 : Byte, tokMlen b0 = (b0.val >>> 2) + 3 ∧
      tokOffset b0 b1 = ((b0.val <<< 8) ||| b1.val) &&& 1023 ∧
      3 ≤ tokMlen b0 ∧ tokMlen b0 ≤ 66 ∧ tokOffset b0 b1 ≤ 1023) := by
  constructor
  · intro mlen offset h1 h2 h3
    have hb := tokByte0_val mlen offset h1 h2 h3
    have hrt := tok_roundtrip mlen offset h1 h2 h3
    refine ⟨?_, by omega, hb, rfl, hrt.1, hrt.2⟩
    have h : offset >>> 8 < 2 ^ 2 := by
      rw [Nat.shiftRight_eq_div_pow]; norm_num; omega
    rw [show MATCH_MIN = 3 from rfl, show NBBY - MATCH_BITS = 2 from rfl,
      show NBBY = 8 from rfl, shl_or_eq _ _ _ h, Nat.shiftRight_eq_div_pow]
    norm_num
  · intro b0 b1
    refine ⟨rfl, rfl, ?_⟩
    rw [tokMlen_val, tokOffset_val]
    omega

/-- The token layout of claim C9 for `mlen = 66` and `offset = 1` (the bytes
`FC 01`), and for the pair of bytes `FF FF`. -/
theorem token_bit_layout_witness :
    (tokByte0 66 1).val = 252 ∧ (tokByte1 1).val = 1 ∧
    tokMlen (tokByte0 66 1) = 66 ∧ tokOffset (tokByte0 66 1) (tokByte1 1) = 1 ∧
    3 ≤ tokMlen 255 ∧ tokMlen 255 ≤ 66 ∧ tokOffset 255 255 ≤ 1023 :=
  ⟨(token_bit_layout.1 66 1 (by decide) (by decide) (by decide)).2.2.1,
    (token_bit_layout.1 66 1 (by decide) (by decide) (by decide)).2.2.2.1,
    (token_bit_layout.1 66 1 (by decide) (by decide) (by decide)).2.2.2.2.1,
    (token_bit_layout.1 66 1 (by decide) (by decide) (by decide)).2.2.2.2.2,
    (token_bit_layout.2 255 255).2.2⟩

/-- Claim C10 as stated fails: the bits of a copy-map byte are not scanned
from the most significant one. In the stream `80 05` the most significant
bit of the copy-map byte is set and the decoder decodes the first token as a
literal; and the encoder, whose second token on `exSrc` is a match, writes
the copy-map byte `02`. -/
theorem copy_map_bit_order_counterexample :
    dIter (memOf [0x80, 5]) 2 1 0 (dInit (fun _ => 0)) = some (dInit (fun _ => 0)) ∧
    (memOf [0x80, 5] 0).val.testBit 7 = true ∧
    ¬ dIsMatch (memOf [0x80, 5]) (dInit (fun _ => 0)) ∧
    Option.map (fun r => (r.status, r.d_len, r.dst 0))
      (lzjb_decompress (memOf [0x80, 5]) 2 (fun _ => 0) 1) = some (LZJB_OK, 1, 5) ∧
    Option.map (fun r => r.out.take 4) (lzjb_compress 4096 exSrc 92) =
      some [0x02, 97, tokByte0 10 1, tokByte1 1] :=
  ⟨rfl, by decide, by decide, by decide, by decide⟩

/-- Claim C10 (copy-map bit order), as the code has it. In both functions the
token of index `i` (from 0 to 7) after a copy-map byte is a back-reference
exactly when the bit of weight `2 ^ i` of that byte is set: the bits are
used from the least significant to the most significant. The mask starts
at `1 << 7`, so that the first shift wraps it to 1. For the decoder: in the
group that starts after `8 * g` tokens, the token of index `i` is tested
with the mask `2 ^ i` against the byte read at the start of the group. For
the encoder: the output is a sequence of groups of tokens (all of eight
tokens but the last), each written as a copy-map byte followed by the bytes
of its tokens, and bit `i` of the copy-map byte is set exactly when the
token of index `i` of the group is a match. -/
theorem copy_map_bit_order :
    (∀ (src : Nat → Byte) (s_len cap : Nat) (dst : Nat → Byte) (g i : Nat)
      (st0 st : DState), i < 8 →
      dIter src s_len cap (8 * g) (dInit dst) = some st0 →
      dIter src s_len cap i st0 = some st →
        st0.copymask = 1 <<< (NBBY - 1) ∧ (dMapStep src st0).2.1 = (src st0.spos).val ∧
        (dMapStep src st).1 = 2 ^ i ∧
        (dIsMatch src st ↔ (src st0.spos).val.testBit i = true)) ∧
    (∀ (a : Nat) (X : List Byte) (d_len : Nat),
      ∃ (r : CResult) (gs : List (List Tok)) (g : List Tok),
        lzjb_compress a X d_len = some r ∧ (∀ x, x ∈ gs → x.length = 8) ∧ g.length < 8 ∧
        r.out = serGs gs ++ serCur g ∧ toksOk X 0 (joinG gs ++ g)) ∧
    (∀ grp : List Tok, grp.length ≤ 8 →
      ∃ mb : Byte, serG grp = mb :: toksBytes grp ∧
        ∀ (i : Nat) (h : i < grp.length), mb.val.testBit i = (grp.get ⟨i, h⟩).isMat) := by
  refine ⟨?_, ?_, ?_⟩
  · intro src s_len cap dst g i st0 st hi h0 h
    have hm := dIter_mask src s_len cap dst _ st0 h0
    rw [show (8 * g + 7) % 8 = 7 by omega] at hm
    obtain ⟨ha, hb⟩ := dIter_group src s_len cap st0 hm i st hi h
    refine ⟨hm, ?_, ha, ?_⟩
    · rw [dMapStep_wrap src st0 hm]
    · unfold dIsMatch
      rw [ha, hb, and_two_pow_ne_zero]
  · intro a X d_len
    obtain ⟨r, hr⟩ := lzjb_compress_total a X d_len
    obtain ⟨gs, g, h1, h2, h3, h4⟩ := cLoop_groups a X d_len _ cInit r (EInv_cInit X) hr
    exact ⟨r, gs, g, hr, h1, h2, h3, h4⟩
  · intro grp hlen
    refine ⟨toByte (mapByte grp), rfl, ?_⟩
    intro i h
    have hlt := mapByte_lt grp
    have hle : 2 ^ grp.length ≤ 2 ^ 8 := Nat.pow_le_pow_right (by omega) hlen
    have hval : (toByte (mapByte grp)).val = mapByte grp := by
      simp only [toByte]; omega
    rw [hval]
    exact mapByte_testBit_get grp i h

/-- The bit order of claim C10 on the stream `02 07 FC 01`: the token of index 1
is a back-reference and bit 1 of the copy-map byte is set. -/
theorem copy_map_bit_order_witness :
    (0 : Nat) < 8 ∧
    dIter (memOf [0x02, 7, 0xFC, 0x01]) 4 67 (8 * 0) (dInit (fun _ => 0)) =
      some (dInit (fun _ => 0)) ∧
    dIter (memOf [0x02, 7, 0xFC, 0x01]) 4 67 1 (dInit (fun _ => 0)) =
      some ⟨2, 1, 2, 1, wr ⟨fun _ => 0, []⟩ 0 7, false⟩ ∧
    (dIsMatch (memOf [0x02, 7, 0xFC, 0x01]) ⟨2, 1, 2, 1, wr ⟨fun _ => 0, []⟩ 0 7, false⟩ ↔
      (memOf [0x02, 7, 0xFC, 0x01] (dInit (fun _ => 0)).spos).val.testBit 1 = true) :=
  ⟨by decide, rfl, rfl,
    (copy_map_bit_order.1 (memOf [0x02, 7, 0xFC, 0x01]) 4 67 (fun _ => 0) 0 1
      (dInit (fun _ => 0)) ⟨2, 1, 2, 1, wr ⟨fun _ => 0, []⟩ 0 7, false⟩ (by decide) rfl rfl).2.2.2⟩

/-! ## Lemmas on the steps of the encoder and on the runs of the decoder -/

theorem cMapStep_alloc (d_len : Nat) (st : CState) (h : st.copymask <<< 1 = 256) :
    cMapStep d_len st =
      if (d_len : Int) - 17 ≤ (st.out.length : Int) then none
      else some (1, st.out.length, st.out ++ [0]) := by
  unfold cMapStep
  rw [show (1 <<< NBBY) = 256 from rfl, if_pos h, show (NBBY : Int) = 8 from rfl]
  by_cases hc : (d_len : Int) - 17 ≤ (st.out.length : Int)
  · rw [if_pos hc, if_pos (by omega)]
  · rw [if_neg hc, if_neg (by omega)]

theorem cMapStep_keep (d_len : Nat) (st : CState) (h : st.copymask <<< 1 ≠ 256) :
    cMapStep d_len st = some (st.copymask <<< 1, st.copymap, st.out) := by
  unfold cMapStep
  rw [show (1 <<< NBBY) = 256 from rfl, if_neg h]

theorem cBody_abort (a : Nat) (X : List Byte) (d_len : Nat) (st : CState)
    (h : cMapStep d_len st = none) :
    cBody a X d_len st = .done ⟨X.length, st.out, true⟩ := by
  unfold cBody; rw [h]

theorem cBody_match (a : Nat) (X : List Byte) (d_len : Nat) (st : CState)
    (ms : Nat × Nat × List Byte) (h : cMapStep d_len st = some ms)
    (hm : cIsMatch a X st) :
    cBody a X d_len st = .next ⟨st.spos + cMlen a X st,
      (ms.2.2.set ms.2.1 (toByte ((ms.2.2.getD ms.2.1 0).val ||| ms.1))) ++
        [tokByte0 (cMlen a X st) (cOffset a X st), tokByte1 (cOffset a X st)],
      ms.2.1, ms.1, cTable a X st⟩ := by
  obtain ⟨h1, h2⟩ := hm
  unfold cShort at h1
  unfold cOffset cHp at h2
  unfold cBody
  rw [h]
  simp only [if_neg h1, h2, if_true]
  rfl

theorem cBody_lit (a : Nat) (X : List Byte) (d_len : Nat) (st : CState)
    (ms : Nat × Nat × List Byte) (h : cMapStep d_len st = some ms)
    (hm : ¬ cIsMatch a X st) :
    cBody a X d_len st = .next ⟨st.spos + 1, ms.2.2 ++ [X.getD st.spos 0], ms.2.1, ms.1,
      if cShort X st then st.lempel else cTable a X st⟩ := by
  unfold cBody
  rw [h]
  by_cases h1 : cShort X st
  · rw [if_pos h1]
    unfold cShort at h1
    simp only [if_pos h1]
  · rw [if_neg h1]
    have h2 : ¬ cAccept X st.spos (cOffset a X st) = true := fun h2 => hm ⟨h1, h2⟩
    unfold cShort at h1
    unfold cOffset cHp at h2
    simp only [if_neg h1, h2]
    rfl

/-- What an iteration of the loop of the encoder that goes on leaves in the
state. -/
theorem cBody_next_shape (a : Nat) (X : List Byte) (d_len : Nat) (st st' : CState)
    (h : cBody a X d_len st = .next st') :
    ∃ ms, cMapStep d_len st = some ms ∧ st'.copymask = ms.1 ∧ st'.copymap = ms.2.1 ∧
      ms.2.2.length < st'.out.length ∧ st'.out.length ≤ ms.2.2.length + 2 := by
  cases hms : cMapStep d_len st with
  | none => rw [cBody_abort a X d_len st hms] at h; cases h
  | some ms =>
    refine ⟨ms, rfl, ?_⟩
    by_cases hm : cIsMatch a X st
    · rw [cBody_match a X d_len st ms hms hm] at h
      cases h
      simp
    · rw [cBody_lit a X d_len st ms hms hm] at h
      cases h
      simp

theorem offsetOf_written (a p q : Nat) (h : q ≤ p) :
    offsetOf a p ((a + q) % 65536) = (p - q) % 1024 := by
  unfold offsetOf
  rw [show (OFFSET_MASK + 1 : Nat) = 1024 from rfl]
  omega

theorem pow_pred_shift (j : Nat) (h1 : 1 ≤ j) : (2 : Nat) ^ (j - 1) <<< 1 = 2 ^ j := by
  rw [Nat.shiftLeft_eq, ← pow_add]; congr 1; omega

theorem WInv_cInit (d_len : Nat) : WInv d_len cInit :=
  ⟨Nat.zero_le _, Or.inl rfl⟩

theorem cBody_WInv (a : Nat) (X : List Byte) (d_len : Nat) (st st' : CState)
    (hW : WInv d_len st) (hb : cBody a X d_len st = .next st') : WInv d_len st' := by
  obtain ⟨ms, hms, h1, h2, _, h4⟩ := cBody_next_shape a X d_len st st' hb
  obtain ⟨hle, hcase⟩ := hW
  rcases hcase with h128 | ⟨j, hj1, hj7, hmask, hlen, hroom⟩
  · rw [cMapStep_alloc d_len st (by rw [h128]; rfl)] at hms
    split_ifs at hms with hc
    cases hms
    simp only [List.length_append, List.length_singleton] at h4
    refine ⟨by omega, Or.inr ⟨1, le_refl _, by omega, h1, ?_, ?_⟩⟩
    · rw [h2]; dsimp only; omega
    · rw [h2]; dsimp only; omega
  · have hsh := pow_pred_shift j hj1
    have hle2 : (2 : Nat) ^ j ≤ 2 ^ 7 := Nat.pow_le_pow_right (by omega) hj7
    rw [cMapStep_keep d_len st (by rw [hmask, hsh]; omega)] at hms
    cases hms
    dsimp only at h1 h2 h4
    rw [hmask, hsh] at h1
    refine ⟨by omega, ?_⟩
    by_cases h7 : j = 7
    · left; rw [h1, h7]; rfl
    · right
      exact ⟨j + 1, by omega, by omega, by rw [h1]; rfl, by rw [h2]; omega, by rw [h2]; omega⟩

theorem extend_stop (src : List Byte) (p c : Nat) : ∀ (fuel m0 : Nat),
    m0 ≤ 66 → 66 ≤ m0 + fuel →
    extend src p c fuel m0 = 66 ∨
      (extend src p c fuel m0 < 66 ∧
        src.getD (p + extend src p c fuel m0) 0 ≠ src.getD (c + extend src p c fuel m0) 0) := by
  intro fuel
  induction fuel with
  | zero => intro m0 h1 h2; left; simp only [extend]; omega
  | succ f ih =>
    intro m0 h1 h2
    rw [extend, MATCH_MAX_eq]
    split_ifs with h3 h4
    · right
      exact ⟨h3, fun h => h4 ((rd_eq_iff _ _ _).mpr h)⟩
    · exact ih (m0 + 1) (by omega) (by omega)
    · left; omega

/-- What the loop of the encoder maintains about the room in the
destination. -/
theorem cLoop_WInv (a : Nat) (X : List Byte) (d_len : Nat) :
    ∀ (fuel : Nat) (st : CState) (r : CResult), WInv d_len st →
      cLoop a X d_len fuel st = some r →
      r.out.length ≤ d_len ∧ (r.aborted = false → r.ret = r.out.length) ∧
      (r.aborted = true → r.ret = X.length) := by
  apply cLoop_inv a X d_len (WInv d_len)
  · intro st st' hW _ hb
    exact cBody_WInv a X d_len st st' hW hb
  · intro st r hW _ hb
    obtain ⟨_, hr⟩ := cBody_done a X d_len st r hb
    subst hr
    exact ⟨hW.1, by simp, by simp⟩
  · intro st hW _
    exact ⟨hW.1, by simp, by simp⟩

theorem dIter_cons (src : Nat → Byte) (s_len cap : Nat) (st0 st1 : DState)
    (h0 : dStep src s_len cap st0 = some st1) : ∀ (k : Nat) (st : DState),
    dIter src s_len cap k st1 = some st → dIter src s_len cap (k + 1) st0 = some st := by
  intro k
  induction k with
  | zero =>
    intro st h
    simp only [dIter, Option.some.injEq] at h
    subst h
    simp [dIter, h0]
  | succ k ih =>
    intro st h
    obtain ⟨mid, h1, h2⟩ := dIter_succ.mp h
    exact dIter_succ.mpr ⟨mid, ih mid h1, h2⟩

/-- A call that returns has gone through some iterations and left the loop in
a state where the source is exhausted or the body returns. -/
theorem dLoop_run (src : Nat → Byte) (s_len cap : Nat) :
    ∀ (fuel : Nat) (st0 : DState) (r : DResult), dLoop src s_len cap fuel st0 = some r →
      ∃ k st, dIter src s_len cap k st0 = some st ∧
        ((¬ st.spos < s_len ∧
            r = ⟨LZJB_OK, st.dpos, st.dst, st.dpos, st.spos, st.overread⟩) ∨
          (st.spos < s_len ∧ dBody src s_len cap st = .done r)) := by
  intro fuel
  induction fuel with
  | zero => intro st0 r h; simp [dLoop] at h
  | succ f ih =>
    intro st0 r h
    rw [dLoop] at h
    split_ifs at h with hlt
    · cases hb : dBody src s_len cap st0 with
      | done r' =>
        rw [hb] at h
        cases h
        exact ⟨0, st0, rfl, Or.inr ⟨hlt, hb⟩⟩
      | next st1 =>
        rw [hb] at h
        obtain ⟨k, st, hk, hcase⟩ := ih st1 r h
        exact ⟨k + 1, st, dIter_cons src s_len cap st0 st1 (dStep_some.mpr ⟨hlt, hb⟩) k st hk,
          hcase⟩
    · cases h
      exact ⟨0, st0, rfl, Or.inl ⟨hlt, rfl⟩⟩

theorem dBody_next_untouched {src : Nat → Byte} {s_len cap : Nat} {st st' : DState}
    (h : dBody src s_len cap st = .next st') :
    st.dpos ≤ st'.dpos ∧ ∀ i, st'.dpos ≤ i → st'.dst i = st.dst i := by
  unfold dBody at h
  simp only at h
  split_ifs at h <;> cases h
  · refine ⟨by dsimp only; omega, ?_⟩
    intro i hi
    exact copyLoop_frame _ _ _ _ _ (Or.inr hi)
  · refine ⟨by dsimp only; omega, ?_⟩
    intro i hi
    dsimp only at hi ⊢
    exact wr_other _ _ _ _ (by omega)

theorem dBody_done_frame {src : Nat → Byte} {s_len cap : Nat} {st : DState} {r : DResult}
    (h : dBody src s_len cap st = .done r) :
    r.dst = st.dst ∧ r.dpos = st.dpos ∧ r.d_len = cap ∧ r.status ≠ LZJB_OK := by
  unfold dBody at h
  simp only at h
  split_ifs at h <;> cases h <;> exact ⟨rfl, rfl, rfl, by simp⟩

/-- The memory from the write cursor on is as it was at the call. -/
theorem dIter_untouched (src : Nat → Byte) (s_len cap : Nat) (dst : Nat → Byte) :
    ∀ (k : Nat) (st : DState), dIter src s_len cap k (dInit dst) = some st →
      ∀ i, st.dpos ≤ i → st.dst i = dst i := by
  intro k
  induction k with
  | zero =>
    intro st h i _
    simp only [dIter, Option.some.injEq] at h
    subst h
    rfl
  | succ k ih =>
    intro st h i hi
    obtain ⟨mid, h1, h2⟩ := dIter_succ.mp h
    obtain ⟨_, hb⟩ := dStep_some.mp h2
    obtain ⟨hle, hfr⟩ := dBody_next_untouched hb
    rw [hfr i hi]
    exact ih mid h1 i (by omega)

theorem litFrom_snoc (x : Byte) : ∀ (xs : List Byte) (k : Nat),
    litFrom k (xs ++ [x]) =
      litFrom k xs ++ (if (k + xs.length) % 8 = 0 then [0, x] else [x]) := by
  intro xs
  induction xs with
  | nil => intro k; simp [litFrom]
  | cons y ys ih =>
    intro k
    rw [List.cons_append, litFrom, litFrom, ih (k + 1), List.length_cons, List.append_assoc,
      show k + 1 + ys.length = k + (ys.length + 1) by omega]

theorem take_succ_getD (X : List Byte) (p : Nat) (h : p < X.length) :
    X.take (p + 1) = X.take p ++ [X.getD p 0] := by
  rw [List.take_succ, List.getD_eq_getElem _ _ h, List.getElem?_eq_getElem h]
  rfl

theorem litStream_take_succ (X : List Byte) (p : Nat) (h : p < X.length) :
    litStream (X.take (p + 1)) =
      litStream (X.take p) ++ (if p % 8 = 0 then [0, X.getD p 0] else [X.getD p 0]) := by
  unfold litStream
  rw [take_succ_getD X p h, litFrom_snoc, List.length_take, Nat.zero_add,
    Nat.min_eq_left (by omega)]

theorem mask_cases : ∀ j, j < 8 →
    ((2 : Nat) ^ j <<< 1 = 256 ↔ j = 7) ∧ (j < 7 → (2 : Nat) ^ j <<< 1 = 2 ^ (j + 1)) := by
  decide

theorem LInv_cInit (X : List Byte) : LInv X cInit :=
  ⟨Nat.zero_le _, rfl, rfl, rfl⟩

/-- On a source shorter than `MATCH_MAX`, with enough room, the body of the
loop emits the byte at the cursor as a literal. -/
theorem cBody_LInv (a : Nat) (X : List Byte) (d_len : Nat) (st : CState)
    (hX : X.length < 66) (hd : LZJB_MAX_COMPRESSED_SIZE X.length ≤ d_len)
    (hL : LInv X st) (hlt : st.spos < X.length) :
    ∃ st', cBody a X d_len st = .next st' ∧ LInv X st' := by
  obtain ⟨_, hout, hmask, hlen⟩ := hL
  have hshort : cShort X st := by
    unfold cShort
    have : (MATCH_MAX : Int) = 66 := rfl
    omega
  have hnm : ¬ cIsMatch a X st := fun h => h.1 hshort
  have hj : (st.spos + 7) % 8 < 8 := Nat.mod_lt _ (by omega)
  obtain ⟨hc1, hc2⟩ := mask_cases _ hj
  unfold LZJB_MAX_COMPRESSED_SIZE at hd
  by_cases h0 : st.spos % 8 = 0
  · have hms : cMapStep d_len st = some (1, st.out.length, st.out ++ [0]) := by
      rw [cMapStep_alloc d_len st (by rw [hmask]; exact hc1.mpr (by omega)), if_neg]
      split_ifs at hd <;> omega
    refine ⟨_, cBody_lit a X d_len st _ hms hnm, by dsimp only; omega, ?_, ?_, ?_⟩
    · dsimp only
      rw [litStream_take_succ X st.spos hlt, if_pos h0, hout]
      simp
    · dsimp only
      rw [show (st.spos + 1 + 7) % 8 = 0 by omega]
      rfl
    · dsimp only
      simp only [List.length_append, List.length_singleton]
      omega
  · have hms : cMapStep d_len st = some (st.copymask <<< 1, st.copymap, st.out) :=
      cMapStep_keep d_len st (by rw [hmask]; intro h; have := hc1.mp h; omega)
    refine ⟨_, cBody_lit a X d_len st _ hms hnm, by dsimp only; omega, ?_, ?_, ?_⟩
    · dsimp only
      rw [litStream_take_succ X st.spos hlt, if_neg h0, hout]
    · dsimp only
      rw [hmask, hc2 (by omega), show (st.spos + 1 + 7) % 8 = (st.spos + 7) % 8 + 1 by omega]
    · dsimp only
      simp only [List.length_append, List.length_singleton]
      omega

theorem offsetOf_congr (a1 a2 p s1 s2 : Nat) (ha : a1 % 1024 = a2 % 1024)
    (hs : s1 % 1024 = s2 % 1024) : offsetOf a1 p s1 = offsetOf a2 p s2 := by
  unfold offsetOf
  rw [show (OFFSET_MASK + 1 : Nat) = 1024 from rfl]
  omega

theorem cTable_congr (a1 a2 : Nat) (X : List Byte) (st1 st2 : CState)
    (ha : a1 % 1024 = a2 % 1024) (hS : CSim st1 st2) :
    TableCongr (cTable a1 X st1) (cTable a2 X st2) := by
  obtain ⟨hsp, _, _, _, hT⟩ := hS
  intro i
  have hhp : cHp X st1 = cHp X st2 := by unfold cHp; rw [hsp]
  unfold cTable
  rw [hhp, hsp]
  split_ifs
  · omega
  · exact hT i

/-- The bodies of two runs whose addresses agree modulo 1024 do the same. -/
theorem cBody_sim (a1 a2 : Nat) (X : List Byte) (d_len : Nat) (st1 st2 : CState)
    (ha : a1 % 1024 = a2 % 1024) (hS : CSim st1 st2) :
    (∀ r, cBody a1 X d_len st1 = .done r → cBody a2 X d_len st2 = .done r) ∧
    (∀ st1', cBody a1 X d_len st1 = .next st1' →
      ∃ st2', cBody a2 X d_len st2 = .next st2' ∧ CSim st1' st2') := by
  have hTab := cTable_congr a1 a2 X st1 st2 ha hS
  obtain ⟨hsp, hout, hcm, hmask, hT⟩ := hS
  have hms : cMapStep d_len st1 = cMapStep d_len st2 := by
    unfold cMapStep; rw [hmask, hout, hcm]
  have hhp : cHp X st1 = cHp X st2 := by unfold cHp; rw [hsp]
  have hoff : cOffset a1 X st1 = cOffset a2 X st2 := by
    unfold cOffset
    rw [hhp, hsp]
    exact offsetOf_congr a1 a2 _ _ _ ha (hT _)
  have hsh : cShort X st1 ↔ cShort X st2 := by unfold cShort; rw [hsp]
  have hmat : cIsMatch a1 X st1 ↔ cIsMatch a2 X st2 := by
    unfold cIsMatch; rw [hsh, hoff, hsp]
  have hml : cMlen a1 X st1 = cMlen a2 X st2 := by
    unfold cMlen; rw [hoff, hsp]
  cases h1 : cMapStep d_len st1 with
  | none =>
    rw [cBody_abort a1 X d_len st1 h1, cBody_abort a2 X d_len st2 (hms ▸ h1), hout]
    exact ⟨fun r h => h, fun st1' h => by cases h⟩
  | some ms =>
    have h2 : cMapStep d_len st2 = some ms := hms ▸ h1
    by_cases hm : cIsMatch a1 X st1
    · rw [cBody_match a1 X d_len st1 ms h1 hm, cBody_match a2 X d_len st2 ms h2 (hmat.mp hm)]
      refine ⟨fun r h => (by cases h), fun st1' h => ?_⟩
      cases h
      refine ⟨_, rfl, ?_⟩
      unfold CSim
      exact ⟨by dsimp only; omega, by dsimp only; rw [hml, hoff], rfl, rfl, hTab⟩
    · rw [cBody_lit a1 X d_len st1 ms h1 hm,
        cBody_lit a2 X d_len st2 ms h2 (fun h => hm (hmat.mpr h))]
      refine ⟨fun r h => (by cases h), fun st1' h => ?_⟩
      cases h
      refine ⟨_, rfl, ?_⟩
      unfold CSim
      refine ⟨by dsimp only; omega, by dsimp only; rw [hsp], rfl, rfl, ?_⟩
      dsimp only
      by_cases hs : cShort X st1
      · rw [if_pos hs, if_pos (hsh.mp hs)]; exact hT
      · rw [if_neg hs, if_neg (fun h => hs (hsh.mpr h))]; exact hTab

theorem cLoop_sim (a1 a2 : Nat) (X : List Byte) (d_len : Nat)
    (ha : a1 % 1024 = a2 % 1024) : ∀ (fuel : Nat) (st1 st2 : CState), CSim st1 st2 →
      cLoop a1 X d_len fuel st1 = cLoop a2 X d_len fuel st2 := by
  intro fuel
  induction fuel with
  | zero => intro st1 st2 _; rfl
  | succ f ih =>
    intro st1 st2 hS
    obtain ⟨hd, hn⟩ := cBody_sim a1 a2 X d_len st1 st2 ha hS
    rw [cLoop, cLoop, ← hS.1, ← hS.2.1]
    split_ifs with hlt
    · cases hb : cBody a1 X d_len st1 with
      | done r => rw [hd r hb]
      | next st1' =>
        obtain ⟨st2', hb2, hS'⟩ := hn st1' hb
        rw [hb2]
        exact ih st1' st2' hS'
    · rfl

/-! ## The claims, continued -/

/-- Claim C11 (empty input). For every address and every `d_len`,
`lzjb_compress` on the empty source writes no byte, does not abort and
returns 0; for every source memory, destination memory and capacity
(0 included), `lzjb_decompress` with `s_len = 0` returns `LZJB_OK`, sets
`*d_len` to 0, reads nothing, makes no store and leaves the destination
memory as it was. -/
theorem empty_input :
    (∀ a d_len : Nat, lzjb_compress a [] d_len = some ⟨0, [], false⟩) ∧
    (∀ (src dst : Nat → Byte) (cap : Nat),
      lzjb_decompress src 0 dst cap = some ⟨LZJB_OK, 0, ⟨dst, []⟩, 0, 0, false⟩) :=
  ⟨fun _ _ => rfl, fun _ _ _ => rfl⟩

/-- Claim C12 (decoder failure frame). For every source, destination and
capacity, when `lzjb_decompress` returns a status other than `LZJB_OK`
(that is `LZJB_BAD_DATA` or `LZJB_WOULD_OVERFLOW`), `*d_len` still holds the
capacity given by the caller; the call returned from the body of the loop in
a state reached after some number of tokens, the destination memory is the
one of that state (the bytes produced by the tokens before the failing one
are in place), and the memory at and beyond the write cursor of that state
is as it was at the call. -/
theorem decoder_failure_frame (src : Nat → Byte) (s_len : Nat) (dst : Nat → Byte)
    (cap : Nat) :
    ∃ r, lzjb_decompress src s_len dst cap = some r ∧
      (r.status = LZJB_OK ∨ r.status = LZJB_BAD_DATA ∨ r.status = LZJB_WOULD_OVERFLOW) ∧
      (r.status ≠ LZJB_OK →
        r.d_len = cap ∧
        ∃ k st, dIter src s_len cap k (dInit dst) = some st ∧ st.spos < s_len ∧
          dBody src s_len cap st = .done r ∧ r.dst = st.dst ∧ r.dpos = st.dpos ∧
          ∀ i, r.dpos ≤ i → r.dst i = dst i) := by
  obtain ⟨r, hr⟩ := lzjb_decompress_total src s_len dst cap
  refine ⟨r, hr, ?_, ?_⟩
  · cases r.status <;> simp
  · intro hne
    obtain ⟨k, st, hk, hcase⟩ := dLoop_run src s_len cap _ (dInit dst) r hr
    rcases hcase with ⟨_, hok⟩ | ⟨hlt, hb⟩
    · rw [hok] at hne
      exact absurd rfl hne
    · obtain ⟨h1, h2, h3, _⟩ := dBody_done_frame hb
      refine ⟨h3, k, st, hk, hlt, hb, h1, h2, ?_⟩
      intro i hi
      rw [h1]
      exact dIter_untouched src s_len cap dst k st hk i (by omega)

/-- Claim C13 (encoder write bound for any capacity). For every source, every
address and every `d_len` (small ones included), `lzjb_compress` returns, the
bytes it has written are `dst[0 .. k)` for some `k ≤ d_len`, whether it
aborts or not, and when it does not abort its return value is that `k`,
hence at most `d_len`. -/
theorem encoder_write_bound (a : Nat) (X : List Byte) (d_len : Nat) :
    ∃ r, lzjb_compress a X d_len = some r ∧ r.out.length ≤ d_len ∧
      (r.aborted = false → r.ret = r.out.length ∧ r.ret ≤ d_len) := by
  obtain ⟨r, hr⟩ := lzjb_compress_total a X d_len
  obtain ⟨h1, h2, _⟩ := cLoop_WInv a X d_len _ cInit r (WInv_cInit d_len) hr
  refine ⟨r, hr, h1, ?_⟩
  intro hab
  have := h2 hab
  exact ⟨this, by omega⟩

/-- Claim C14 (encoder back-reference invariant). In every state of the loop,
whatever the table `lempel` holds, when the body emits a match token (the
cursor `p` is not within `MATCH_MAX` of the end and the candidate is
accepted), the token written is made of the fields `mlen` and `offset` with
`1 ≤ offset ≤ 1023`, `offset ≤ p`, `3 ≤ mlen ≤ 66`, `p + mlen ≤ s_len` and
`X[p + i] = X[p - offset + i]` for every `i < mlen`. -/
theorem encoder_backref_invariant (a : Nat) (X : List Byte) (d_len : Nat) (st : CState)
    (ms : Nat × Nat × List Byte) (hms : cMapStep d_len st = some ms)
    (hm : cIsMatch a X st) :
    cBody a X d_len st = .next ⟨st.spos + cMlen a X st,
      (ms.2.2.set ms.2.1 (toByte ((ms.2.2.getD ms.2.1 0).val ||| ms.1))) ++
        [tokByte0 (cMlen a X st) (cOffset a X st), tokByte1 (cOffset a X st)],
      ms.2.1, ms.1, cTable a X st⟩ ∧
    1 ≤ cOffset a X st ∧ cOffset a X st ≤ 1023 ∧ cOffset a X st ≤ st.spos ∧
    3 ≤ cMlen a X st ∧ cMlen a X st ≤ 66 ∧ st.spos + cMlen a X st ≤ X.length ∧
    ∀ i, i < cMlen a X st →
      X.getD (st.spos + i) 0 = X.getD (st.spos - cOffset a X st + i) 0 := by
  refine ⟨cBody_match a X d_len st ms hms hm, ?_⟩
  obtain ⟨h1, h2⟩ := hm
  unfold cShort at h1
  have h66 : (MATCH_MAX : Int) = 66 := rfl
  have hok := match_ok X st.spos (cOffset a X st) h2 (offsetOf_le _ _ _) (by omega)
  obtain ⟨k1, k2, k3, k4, k5, k6, k7⟩ := hok
  exact ⟨k3, k4, k5, k1, k2, k6, k7⟩

/-- The encoder back-reference invariant of claim C14 in the state that
follows the first literal of `exSrc`, where the match of length 10 and offset
1 is emitted. -/
theorem encoder_backref_invariant_witness :
    cMapStep 92 ⟨1, [0, 97], 0, 1, cTable 4096 exSrc cInit⟩ = some (2, 0, [0, 97]) ∧
    cIsMatch 4096 exSrc ⟨1, [0, 97], 0, 1, cTable 4096 exSrc cInit⟩ ∧
    cOffset 4096 exSrc ⟨1, [0, 97], 0, 1, cTable 4096 exSrc cInit⟩ = 1 ∧
    cMlen 4096 exSrc ⟨1, [0, 97], 0, 1, cTable 4096 exSrc cInit⟩ = 10 ∧
    1 ≤ cOffset 4096 exSrc ⟨1, [0, 97], 0, 1, cTable 4096 exSrc cInit⟩ ∧
    cOffset 4096 exSrc ⟨1, [0, 97], 0, 1, cTable 4096 exSrc cInit⟩ ≤ 1 :=
  ⟨rfl, by decide, by decide, by decide,
    (encoder_backref_invariant 4096 exSrc 92 ⟨1, [0, 97], 0, 1, cTable 4096 exSrc cInit⟩
      (2, 0, [0, 97]) rfl (by decide)).2.1,
    (encoder_backref_invariant 4096 exSrc 92 ⟨1, [0, 97], 0, 1, cTable 4096 exSrc cInit⟩
      (2, 0, [0, 97]) rfl (by decide)).2.2.2.1⟩

/-- Claim C15 (decoder back-reference invariant) fails on the code. On the
stream `01 00 00` the first token is a back-reference of offset 0 and length
3; the decoder accepts it, copies the three bytes of the destination onto
themselves and returns `LZJB_OK` with `*d_len = 3`: the bytes produced are
the initial contents of the destination, `AA AA AA` in one run and
`55 55 55` in the other. -/
theorem decoder_offset_zero :
    dIsMatch (memOf [1, 0, 0]) (dInit (fun _ => 0xAA)) ∧
    dOffset (memOf [1, 0, 0]) (dInit (fun _ => 0xAA)) = 0 ∧
    dMlen (memOf [1, 0, 0]) (dInit (fun _ => 0xAA)) = 3 ∧
    Option.map (fun r => (r.status, r.d_len, bytesOf r.dst 3, r.overread))
      (lzjb_decompress (memOf [1, 0, 0]) 3 (fun _ => 0xAA) 3) =
        some (LZJB_OK, 3, [0xAA, 0xAA, 0xAA], false) ∧
    Option.map (fun r => (r.status, r.d_len, bytesOf r.dst 3, r.overread))
      (lzjb_decompress (memOf [1, 0, 0]) 3 (fun _ => 0x55) 3) =
        some (LZJB_OK, 3, [0x55, 0x55, 0x55], false) :=
  ⟨by decide, by decide, by decide, by decide, by decide⟩

/-- Claim C16 (short inputs are stored as literals). For every source `X` of
length `n` with `1 ≤ n < MATCH_MAX`, every address and every
`d_len ≥ LZJB_MAX_COMPRESSED_SIZE(n)`, no state of the loop emits a match
token, and `lzjb_compress` does not abort, writes `X` with one zero copy-map
byte before each group of eight bytes and returns `n + ceil(n / 8)`. -/
theorem short_input_literals (a : Nat) (X : List Byte) (d_len : Nat)
    (h1 : 1 ≤ X.length) (h2 : X.length < MATCH_MAX)
    (hd : LZJB_MAX_COMPRESSED_SIZE X.length ≤ d_len) :
    (∀ st : CState, ¬ cIsMatch a X st) ∧
    lzjb_compress a X d_len = some ⟨X.length + (X.length + 7) / 8, litStream X, false⟩ := by
  have _ := h1
  rw [MATCH_MAX_eq] at h2
  constructor
  · intro st h
    apply h.1
    unfold cShort
    have : (MATCH_MAX : Int) = 66 := rfl
    omega
  · obtain ⟨r, hr⟩ := lzjb_compress_total a X d_len
    rw [hr]
    congr 1
    refine cLoop_inv a X d_len (LInv X)
      (fun r => r = ⟨X.length + (X.length + 7) / 8, litStream X, false⟩) ?_ ?_ ?_ _ cInit r
      (LInv_cInit X) hr
    · intro st st' hL hlt hb
      obtain ⟨st'', hb', hL'⟩ := cBody_LInv a X d_len st h2 hd hL hlt
      rw [hb] at hb'
      cases hb'
      exact hL'
    · intro st r' hL hlt hb
      obtain ⟨st'', hb', _⟩ := cBody_LInv a X d_len st h2 hd hL hlt
      rw [hb] at hb'
      cases hb'
    · intro st hL hlt
      obtain ⟨hle, hout, _, hlen⟩ := hL
      have hsp : st.spos = X.length := by omega
      rw [hsp, List.take_length] at hout
      rw [hlen, hout, hsp]

/-- The claim C16 on a source of ten bytes: the output is a zero, the first
eight bytes, a zero and the last two bytes, twelve bytes in all. -/
theorem short_input_literals_witness :
    1 ≤ [1, 2, 3, 4, 5, 6, 7, 8, 9, (10 : Byte)].length ∧
    [1, 2, 3, 4, 5, 6, 7, 8, 9, (10 : Byte)].length < MATCH_MAX ∧
    LZJB_MAX_COMPRESSED_SIZE [1, 2, 3, 4, 5, 6, 7, 8, 9, (10 : Byte)].length ≤ 28 ∧
    litStream [1, 2, 3, 4, 5, 6, 7, 8, 9, 10] = [0, 1, 2, 3, 4, 5, 6, 7, 8, 0, 9, 10] ∧
    lzjb_compress 4096 [1, 2, 3, 4, 5, 6, 7, 8, 9, 10] 28 =
      some ⟨[1, 2, 3, 4, 5, 6, 7, 8, 9, (10 : Byte)].length +
        ([1, 2, 3, 4, 5, 6, 7, 8, 9, (10 : Byte)].length + 7) / 8,
        litStream [1, 2, 3, 4, 5, 6, 7, 8, 9, 10], false⟩ :=
  ⟨by decide, by decide, by decide, by decide,
    (short_input_literals 4096 [1, 2, 3, 4, 5, 6, 7, 8, 9, 10] 28 (by decide) (by decide)
      (by decide)).2⟩

/-- Claim C17 (headroom abort). In every state in which the body is about to
allocate a copy-map byte (the shifted mask is `1 << NBBY`), with `w` bytes
written, the body returns `s_len` through the headroom check exactly when
`w ≥ d_len - 17`, and otherwise goes on; in the other states the body never
returns. In particular, for every source of at least one byte and every
`d_len ≤ 17`, `lzjb_compress` returns `s_len` and has written nothing. -/
theorem headroom_abort :
    (∀ (a : Nat) (X : List Byte) (d_len : Nat) (st : CState),
      st.copymask <<< 1 = 1 <<< NBBY →
        ((cBody a X d_len st = .done ⟨X.length, st.out, true⟩ ↔
            (d_len : Int) - 17 ≤ (st.out.length : Int)) ∧
          (¬ (d_len : Int) - 17 ≤ (st.out.length : Int) →
            ∃ st', cBody a X d_len st = .next st'))) ∧
    (∀ (a : Nat) (X : List Byte) (d_len : Nat) (st : CState),
      st.copymask <<< 1 ≠ 1 <<< NBBY → ∃ st', cBody a X d_len st = .next st') ∧
    (∀ (a : Nat) (X : List Byte) (d_len : Nat), 1 ≤ X.length → d_len ≤ 17 →
      lzjb_compress a X d_len = some ⟨X.length, [], true⟩) := by
  have hnext : ∀ (a : Nat) (X : List Byte) (d_len : Nat) (st : CState)
      (ms : Nat × Nat × List Byte), cMapStep d_len st = some ms →
      ∃ st', cBody a X d_len st = .next st' := by
    intro a X d_len st ms hms
    by_cases hm : cIsMatch a X st
    · exact ⟨_, cBody_match a X d_len st ms hms hm⟩
    · exact ⟨_, cBody_lit a X d_len st ms hms hm⟩
  refine ⟨?_, ?_, ?_⟩
  · intro a X d_len st hmask
    have hms := cMapStep_alloc d_len st hmask
    by_cases hc : (d_len : Int) - 17 ≤ (st.out.length : Int)
    · rw [if_pos hc] at hms
      exact ⟨⟨fun _ => hc, fun _ => cBody_abort a X d_len st hms⟩, fun h => absurd hc h⟩
    · rw [if_neg hc] at hms
      obtain ⟨st', hst'⟩ := hnext a X d_len st _ hms
      refine ⟨⟨fun h => ?_, fun h => absurd h hc⟩, fun _ => ⟨st', hst'⟩⟩
      rw [hst'] at h
      cases h
  · intro a X d_len st hmask
    exact hnext a X d_len st _ (cMapStep_keep d_len st hmask)
  · intro a X d_len hn hd
    have hms : cMapStep d_len cInit = none := by
      rw [cMapStep_alloc d_len cInit rfl, if_pos (by simp [cInit]; omega)]
    show cLoop a X d_len (X.length + 1) cInit = _
    rw [cLoop, if_pos (by simpa [cInit] using hn), cBody_abort a X d_len cInit hms]
    rfl

/-- The headroom abort of claim C17 on `exSrc` with `d_len = 17`: the call
returns 67 and writes nothing, the body returning from the first state, where
`0 ≥ 17 - 17`. -/
theorem headroom_abort_witness :
    lzjb_compress 4096 exSrc 17 = some ⟨exSrc.length, [], true⟩ ∧
    ((cBody 4096 exSrc 17 cInit = .done ⟨exSrc.length, cInit.out, true⟩) ↔
      ((17 : Nat) : Int) - 17 ≤ (cInit.out.length : Int)) :=
  ⟨headroom_abort.2.2 4096 exSrc 17 (by decide) (by decide),
    (headroom_abort.1 4096 exSrc 17 cInit rfl).1⟩

/-- Claim C18 (greedy match extension). In every state of the loop in which
the body emits a match token at the cursor `p` with the offset `o`, the
length `mlen` of the token is the largest `m` in `3..66` with
`X[p + i] = X[p - o + i]` for every `i < m`: the bytes agree below `mlen`,
and either `mlen = 66` or `X[p + mlen]` differs from `X[p - o + mlen]`; and
the cursor advances by exactly `mlen`. -/
theorem greedy_extension (a : Nat) (X : List Byte) (d_len : Nat) (st : CState)
    (ms : Nat × Nat × List Byte) (hms : cMapStep d_len st = some ms)
    (hm : cIsMatch a X st) :
    (∃ st', cBody a X d_len st = .next st' ∧ st'.spos = st.spos + cMlen a X st ∧
      st'.out = (ms.2.2.set ms.2.1 (toByte ((ms.2.2.getD ms.2.1 0).val ||| ms.1))) ++
        [tokByte0 (cMlen a X st) (cOffset a X st), tokByte1 (cOffset a X st)]) ∧
    3 ≤ cMlen a X st ∧ cMlen a X st ≤ 66 ∧
    (∀ i, i < cMlen a X st →
      X.getD (st.spos + i) 0 = X.getD (st.spos - cOffset a X st + i) 0) ∧
    (cMlen a X st = 66 ∨
      X.getD (st.spos + cMlen a X st) 0 ≠
        X.getD (st.spos - cOffset a X st + cMlen a X st) 0) ∧
    (∀ m, 3 ≤ m → m ≤ 66 →
      (∀ i, i < m → X.getD (st.spos + i) 0 = X.getD (st.spos - cOffset a X st + i) 0) →
      m ≤ cMlen a X st) := by
  have hbody := cBody_match a X d_len st ms hms hm
  obtain ⟨h1, h2⟩ := hm
  unfold cShort at h1
  have h66 : (MATCH_MAX : Int) = 66 := rfl
  have hok := match_ok X st.spos (cOffset a X st) h2 (offsetOf_le _ _ _) (by omega)
  obtain ⟨k1, k2, _, _, _, _, k7⟩ := hok
  have hstop := extend_stop X st.spos (st.spos - cOffset a X st) (MATCH_MAX - MATCH_MIN)
    MATCH_MIN (by decide) (by decide)
  have hstop' : cMlen a X st = 66 ∨ (cMlen a X st < 66 ∧
      X.getD (st.spos + cMlen a X st) 0 ≠
        X.getD (st.spos - cOffset a X st + cMlen a X st) 0) := hstop
  refine ⟨⟨_, hbody, rfl, rfl⟩, k1, k2, k7, ?_, ?_⟩
  · rcases hstop' with h | ⟨_, h⟩
    · exact Or.inl h
    · exact Or.inr h
  · intro m _ hm66 hall
    rcases hstop' with h | ⟨hlt, hne⟩
    · omega
    · by_contra hcon
      exact hne (hall _ (by omega))

/-- The greedy extension of claim C18 in the state that follows the first
literal of `exSrc`: the match has length 10, and the byte `b` at position 11
differs from the byte `a` at position 10. -/
theorem greedy_extension_witness :
    cMapStep 92 ⟨1, [0, 97], 0, 1, cTable 4096 exSrc cInit⟩ = some (2, 0, [0, 97]) ∧
    cIsMatch 4096 exSrc ⟨1, [0, 97], 0, 1, cTable 4096 exSrc cInit⟩ ∧
    cMlen 4096 exSrc ⟨1, [0, 97], 0, 1, cTable 4096 exSrc cInit⟩ = 10 ∧
    3 ≤ cMlen 4096 exSrc ⟨1, [0, 97], 0, 1, cTable 4096 exSrc cInit⟩ :=
  ⟨rfl, by decide, by decide,
    (greedy_extension 4096 exSrc 92 ⟨1, [0, 97], 0, 1, cTable 4096 exSrc cInit⟩
      (2, 0, [0, 97]) rfl (by decide)).2.1⟩

/-- Claim C19 as stated fails: the output depends on the address of the
source. On the 72 bytes of `exAddr` (`aaaaab`, `aab`, then `c`) the sequence
`aab` at position 6 is looked up in a slot that was never written; at the
address 5117 the candidate offset is `(5117 + 6) mod 1024 = 3` and the match
with position 3 is emitted, at the address 4096 the candidate is 6 and the
byte is a literal. The two runs return 78 and 79. -/
theorem address_independence_counterexample :
    Option.map (fun r => (r.ret, r.aborted, r.out.take 8)) (lzjb_compress 4096 exAddr 200) =
      some (79, false, [2, 97, 4, 1, 98, 97, 97, 98]) ∧
    Option.map (fun r => (r.ret, r.aborted, r.out.take 8)) (lzjb_compress 5117 exAddr 200) =
      some (78, false, [10, 97, 4, 1, 98, 0, 3, 99]) ∧
    lzjb_compress 4096 exAddr 200 ≠ lzjb_compress 5117 exAddr 200 :=
  ⟨by decide, by decide, by decide⟩

/-- Claim C19 (address independence), as the code has it. The result of
`lzjb_compress` is a function of the source bytes, of `d_len` and of the low
ten bits of the address of the source: two runs on equal source contents and
equal `d_len`, at addresses that are congruent modulo 1024, return the same
value and write the same bytes. -/
theorem address_independence (a1 a2 : Nat) (X : List Byte) (d_len : Nat)
    (ha : a1 % 1024 = a2 % 1024) :
    lzjb_compress a1 X d_len = lzjb_compress a2 X d_len :=
  cLoop_sim a1 a2 X d_len ha _ cInit cInit ⟨rfl, rfl, rfl, rfl, fun _ => rfl⟩

/-- The claim C19 as amended at the addresses 4096 and 8192 on `exAddr`. -/
theorem address_independence_witness :
    4096 % 1024 = 8192 % 1024 ∧
    lzjb_compress 4096 exAddr 200 = lzjb_compress 8192 exAddr 200 :=
  ⟨by decide, address_independence 4096 8192 exAddr 200 (by decide)⟩

/-- Claim C20 (16-bit truncation of positions). In every state in which the
body of the loop looks at the table at the cursor `q`, it stores in the slot
the low 16 bits of the address of the cursor, `(a + q) mod 2^16`; and for
every later position `p ≥ q`, of any size, the offset candidate computed from
that stored value is `(p - q) mod 1024`, what a table of full positions
would give. -/
theorem truncation_harmless :
    (∀ (a : Nat) (X : List Byte) (d_len : Nat) (st st' : CState),
      cBody a X d_len st = .next st' → ¬ cShort X st →
        st'.lempel = cTable a X st ∧ st'.lempel (cHp X st) = (a + st.spos) % 2 ^ 16) ∧
    (∀ a p q : Nat, q ≤ p →
      offsetOf a p ((a + q) % 2 ^ 16) = (p - q) % 1024 ∧
      offsetOf 0 p (q % 2 ^ 16) = (p - q) % 1024) := by
  constructor
  · intro a X d_len st st' hb hs
    have hcell : cTable a X st (cHp X st) = (a + st.spos) % 2 ^ 16 := by
      simp [cTable]
    cases hms : cMapStep d_len st with
    | none => rw [cBody_abort a X d_len st hms] at hb; cases hb
    | some ms =>
      by_cases hm : cIsMatch a X st
      · rw [cBody_match a X d_len st ms hms hm] at hb
        cases hb
        exact ⟨rfl, hcell⟩
      · rw [cBody_lit a X d_len st ms hms hm, if_neg hs] at hb
        cases hb
        exact ⟨rfl, hcell⟩
  · intro a p q h
    refine ⟨offsetOf_written a p q h, ?_⟩
    have := offsetOf_written 0 p q h
    simpa using this

/-- The truncation of claim C20 for a position beyond 65536: the slot written
at position 70000 holds 4464 and the candidate at position 70010 is 10. -/
theorem truncation_harmless_witness :
    (70000 : Nat) ≤ 70010 ∧
    offsetOf 0 70010 (70000 % 2 ^ 16) = (70010 - 70000) % 1024 :=
  ⟨by decide, (truncation_harmless.2 0 70010 70000 (by decide)).2⟩

end Lzjb
